import Mathlib

/-!
# Verification of the PCCap (Proof-Carrying Capabilities) core

Shallow embedding of `src/reference/python_gateway/src/csp_gateway/pccap.py`.

Modelling conventions:
* Python `str` values are Lean `String`s; path-manipulating library functions
  (`os.path.normpath`, `os.path.abspath`, `os.path.join`, `os.path.commonpath`,
  `pathlib.PurePath.parts`) are modelled character-for-character after CPython's
  `posixpath` implementation, over `List Char`.
* The tool-argument mapping `dict[str, Any]` is modelled as an association list
  `List (String × String)`: the PCCap core only ever reads string-valued
  arguments (paths, content, exact-match args).  Python truthiness of a string
  (`if path:`) is the `≠ ""` test; `a or b` chains are `pyOr`.
* Timestamps (`float` seconds) are modelled as `Int`; `os.getcwd()` (consulted
  by `os.path.abspath`) and `time.time()` are passed explicitly as `cwd`/`now`
  parameters; random token ids and nonces are explicit parameters of `mint`.
* The HMAC-SHA256 primitive is an explicit parameter `mac` of type
  `List Char → List Char → List Char` (secret, message ↦ digest); theorems about
  unforgeability-style facts carry the collision-freeness of the keyed MAC as an
  explicit injectivity hypothesis.  The base64 transport encoding of digests and
  the UTF-8 encoding of the canonical JSON text are injective transports and are
  absorbed into `mac`.
* `json.dumps(d, sort_keys=True, separators=(",", ":"))` is modelled by
  `PCCapToken.canonical_bytes`: keys in sorted order, no whitespace, strings
  escaped.  The escape table covers `"` and `\` (the characters that occur in
  JSON's structural positions); control-character and non-ASCII `\uXXXX`
  escapes are not modelled.
* The mutable `PCCapStore` / `PCCapPolicyEngine` state is passed explicitly:
  every mutating operation returns its result together with the new store.

`Principal` is imported by the source from `assay_gateway.types`, which is not
among the given sources; the spec describes it as a subject identifier plus an
actor classification, and the PCCap core reads only `sub`.
-/

set_option maxRecDepth 8000

namespace PCCap

/-! ## POSIX path model (CPython `posixpath` / `pathlib.PurePosixPath`) -/

def SEP : Char := '/'

/-- `'.'.'` marker, the parent-directory path segment. -/
def dotdot : List Char := ['.', '.']

/-- `s.split('/')` on character lists (CPython `str.split` with an explicit
separator: empty pieces are kept). -/
def splitSlash : List Char → List (List Char)
  | [] => [[]]
  | c :: rest =>
    let r := splitSlash rest
    if c = SEP then [] :: r
    else
      match r with
      | h :: t => (c :: h) :: t
      | [] => [[c]]

/-- Path components with empty and `'.'` pieces dropped, as in
`posixpath.commonpath` and in `posixpath.normpath`'s component walk. -/
def filteredComps (l : List Char) : List (List Char) :=
  (splitSlash l).filter (fun c => !c.isEmpty && !(c = ['.'] : Bool))

/-- `pathlib.PurePosixPath(s).parts`: optional root marker (`//` is kept
distinct by POSIX, three or more slashes collapse to one) followed by the
non-empty, non-`'.'` components. -/
def purePathParts (l : List Char) : List (List Char) :=
  (if l.take 2 = [SEP, SEP] ∧ l.take 3 ≠ [SEP, SEP, SEP] then [[SEP, SEP]]
   else if l.head? = some SEP then [[SEP]]
   else []) ++ filteredComps l

/-- `'..' in PurePath(s).parts`. -/
def hasTraversal (l : List Char) : Bool :=
  (purePathParts l).contains dotdot

/-- Number of leading slashes `posixpath.normpath` preserves (1, or 2 for the
POSIX-special `//` root). -/
def initialSlashes (p : List Char) : Nat :=
  if p.head? = some SEP then
    if p.take 2 = [SEP, SEP] ∧ p.take 3 ≠ [SEP, SEP, SEP] then 2 else 1
  else 0

/-- One step of `posixpath.normpath`'s component walk. -/
def normStep (slashes : Nat) (acc : List (List Char)) (comp : List Char) :
    List (List Char) :=
  if comp = [] ∨ comp = ['.'] then acc
  else if comp ≠ dotdot ∨ (slashes = 0 ∧ acc = []) ∨ acc.getLast? = some dotdot then
    acc ++ [comp]
  else if acc ≠ [] then acc.dropLast
  else acc

/-- `'/'.join` interleaving for path components. -/
def interJoin : List (List Char) → List Char
  | [] => []
  | [c] => c
  | c :: cs => c ++ SEP :: interJoin cs

/-- `posixpath.normpath`. -/
def normpath (p : List Char) : List Char :=
  if p = [] then ['.']
  else
    let slashes := initialSlashes p
    let comps := (splitSlash p).foldl (normStep slashes) []
    let res := List.replicate slashes SEP ++ interJoin comps
    if res = [] then ['.'] else res

/-- `posixpath.join` restricted to two operands (the only form the core uses,
via `abspath`). -/
def pyJoin (a b : List Char) : List Char :=
  if b.head? = some SEP then b
  else if a = [] ∨ a.getLast? = some SEP then a ++ b
  else a ++ SEP :: b

/-- `posixpath.abspath`, with the process working directory `cwd` explicit. -/
def abspath (p cwd : List Char) : List Char :=
  if p.head? = some SEP then normpath p else normpath (pyJoin cwd p)

/-- Longest common leading run of equal components; for two paths this is what
`posixpath.commonpath`'s `min`/`max` scan computes. -/
def commonPre : List (List Char) → List (List Char) → List (List Char)
  | a :: as, b :: bs => if a = b then a :: commonPre as bs else []
  | _, _ => []

/-- `posixpath.commonpath([p, q])`; `none` models the `ValueError` raised on a
mix of absolute and relative paths. -/
def commonpath2 (p q : List Char) : Option (List Char) :=
  if (p.head? = some SEP) ↔ (q.head? = some SEP) then
    some ((if p.head? = some SEP then [SEP] else []) ++
      interJoin (commonPre (filteredComps p) (filteredComps q)))
  else none

/-! ## Arguments, Python truthiness -/

/-- Python `a or b` on optional strings: `None` and `""` are falsy. -/
def pyOr (a b : Option String) : Option String :=
  match a with
  | some s => if s = "" then b else some s
  | none => b

/-- `arguments.get(k)` on the association-list model of the dict. -/
def lookupArg (args : List (String × String)) (k : String) : Option String :=
  (args.find? (fun kv => kv.fst == k)).map Prod.snd

/-- `arguments.get("path") or arguments.get("file_path") or
arguments.get("target")` (left-associated, as Python evaluates it). -/
def selectPathArg (args : List (String × String)) : Option String :=
  pyOr (pyOr (lookupArg args "path") (lookupArg args "file_path"))
    (lookupArg args "target")

/-- Python `str(x)` rendering of an optional string, for reason messages. -/
def showOptArg : Option String → String
  | none => "None"
  | some s => s

/-! ## PCCapScope and matches_request -/

structure PCCapScope where
  tool_name : String
  allowed_args : List (String × String)
  path_prefix : Option String
  max_bytes : Option Int
deriving DecidableEq, Repr

/-- The path-constraint block of `PCCapScope.matches_request`
(pccap.py lines 121–137): returns `some reason` on rejection. -/
def pathCheck (pre : String) (path_text : String) (cwd : String) : Option String :=
  if hasTraversal path_text.data then
    some ("path traversal detected: " ++ path_text)
  else
    let normalized := normpath path_text.data
    if hasTraversal normalized then
      some ("path traversal detected: " ++ path_text)
    else
      let requested_abs := abspath normalized cwd.data
      let allowed_abs := abspath (normpath pre.data) cwd.data
      match commonpath2 requested_abs allowed_abs with
      | none => some ("path " ++ path_text ++ " not under allowed prefix " ++ pre)
      | some c =>
        if c = allowed_abs then none
        else some ("path " ++ path_text ++ " not under allowed prefix " ++ pre)

/-- The `max_bytes` block: size of the `content`/`data` argument in UTF-8
bytes (the model's argument values are strings, so `str(content).encode()`). -/
def bytesCheck (mb : Int) (args : List (String × String)) : Option String :=
  match pyOr (lookupArg args "content") (lookupArg args "data") with
  | none => none
  | some content =>
    if (content.utf8ByteSize : Int) > mb then
      some ("content exceeds max_bytes (" ++ toString mb ++ ")")
    else none

/-- The `allowed_args` block: every declared key must match exactly. -/
def argsCheck (allowed : List (String × String))
    (args : List (String × String)) : Option String :=
  match allowed with
  | [] => none
  | (k, expected) :: rest =>
    let actual := lookupArg args k
    if actual ≠ some expected then
      some ("arg mismatch: " ++ k ++ "=" ++ showOptArg actual ++
        " (expected " ++ expected ++ ")")
    else argsCheck rest args

/-- `PCCapScope.matches_request(tool_name, arguments)`; `cwd` threads the
working directory consulted by `os.path.abspath`. -/
def PCCapScope.matches_request (sc : PCCapScope) (tool_name : String)
    (args : List (String × String)) (cwd : String) : Bool × Option String :=
  if tool_name ≠ sc.tool_name then
    (false, some ("tool mismatch: " ++ tool_name ++ " != " ++ sc.tool_name))
  else
    let pathRes : Option String :=
      match PCCapScope.path_prefix sc with
      | none => none
      | some pre =>
        match selectPathArg args with
        | none => none
        | some p => if p = "" then none else pathCheck pre p cwd
    match pathRes with
    | some r => (false, some r)
    | none =>
      let bRes : Option String :=
        match sc.max_bytes with
        | none => none
        | some mb => bytesCheck mb args
      match bRes with
      | some r => (false, some r)
      | none =>
        match argsCheck sc.allowed_args args with
        | some r => (false, some r)
        | none => (true, none)

/-! ## Canonical JSON serialization (json.dumps, sort_keys, separators) -/

def lbrace : Char := '\x7b'

def rbrace : Char := '\x7d'

/-- JSON string escaping for the characters in structural positions (`"`, `\`);
control-character and non-ASCII escapes are outside the model. -/
def escChar (c : Char) : List Char :=
  if c = '"' ∨ c = '\\' then ['\\', c] else [c]

def escStr : List Char → List Char
  | [] => []
  | c :: cs => escChar c ++ escStr cs

/-- A JSON string literal: `"…"` with escaped body. -/
def jsonStr (s : String) : List Char :=
  '"' :: escStr s.data ++ ['"']

/-- An object key followed by `:` — keys of the token/scope dicts are fixed
identifiers needing no escapes. -/
def keyLit (s : String) : List Char :=
  '"' :: s.data ++ ['"', ':']

def digitChar : Nat → Char
  | 0 => '0' | 1 => '1' | 2 => '2' | 3 => '3' | 4 => '4'
  | 5 => '5' | 6 => '6' | 7 => '7' | 8 => '8' | 9 => '9'
  | _ => '*'

/-- Fuel-driven digit accumulator (structural recursion, so the kernel can
evaluate it): peels decimal digits from the least significant end. -/
def natDigitsGo : Nat → Nat → List Char → List Char
  | 0, _, acc => acc
  | fuel + 1, n, acc =>
    if n < 10 then digitChar (n % 10) :: acc
    else natDigitsGo fuel (n / 10) (digitChar (n % 10) :: acc)

/-- Decimal digits of a natural number, most significant first. -/
def natDigits (n : Nat) : List Char :=
  natDigitsGo (n + 1) n []

/-- Python/JSON decimal rendering of an integer. -/
def jsonInt (i : Int) : List Char :=
  if i < 0 then '-' :: natDigits (-i).toNat else natDigits i.toNat

def jsonNull : List Char := ['n', 'u', 'l', 'l']

def jsonBool : Bool → List Char
  | true => ['t', 'r', 'u', 'e']
  | false => ['f', 'a', 'l', 's', 'e']

def jsonOptStr : Option String → List Char
  | none => jsonNull
  | some s => jsonStr s

def jsonOptInt : Option Int → List Char
  | none => jsonNull
  | some i => jsonInt i

/-- Code-point lexicographic strict order on strings (Python `str <`). -/
def lexLt : List Char → List Char → Bool
  | [], [] => false
  | [], _ :: _ => true
  | _ :: _, [] => false
  | x :: xs, y :: ys =>
    if x.val < y.val then true
    else if y.val < x.val then false
    else lexLt xs ys

def insortKey (p : String × String) :
    List (String × String) → List (String × String)
  | [] => [p]
  | q :: rest =>
    if lexLt q.fst.data p.fst.data then q :: insortKey p rest else p :: q :: rest

/-- `sort_keys=True` ordering of a dict's items. -/
def sortPairs (l : List (String × String)) : List (String × String) :=
  l.foldr insortKey []

def dictEntry (p : String × String) : List Char :=
  jsonStr p.fst ++ ':' :: jsonStr p.snd

def dictBody : List (String × String) → List Char
  | [] => []
  | [p] => dictEntry p
  | p :: rest => dictEntry p ++ ',' :: dictBody rest

/-- A JSON object for a `dict[str, str]`, keys sorted. -/
def jsonDict (l : List (String × String)) : List Char :=
  lbrace :: dictBody (sortPairs l) ++ [rbrace]

/-- `PCCapScope.to_dict()` under canonical serialization. -/
def scopeJson (sc : PCCapScope) : List Char :=
  lbrace :: keyLit "allowed_args" ++ jsonDict sc.allowed_args ++
  ',' :: keyLit "max_bytes" ++ jsonOptInt sc.max_bytes ++
  ',' :: keyLit "path_prefix" ++ jsonOptStr (PCCapScope.path_prefix sc) ++
  ',' :: keyLit "tool_name" ++ jsonStr sc.tool_name ++ [rbrace]

/-! ## Token, Keyring -/

inductive SignatureAlgorithm where
  | HMAC_SHA256
  | ED25519
deriving DecidableEq, Repr

def SignatureAlgorithm.value : SignatureAlgorithm → String
  | .HMAC_SHA256 => "HS256"
  | .ED25519 => "Ed25519"

structure PCCapToken where
  token_id : String
  principal_sub : String
  scope : PCCapScope
  issued_at : Int
  expires_at : Int
  issued_by : String
  policy_id : Option String
  single_use : Bool
  nonce : Option String
  signature : Option String
  algorithm : SignatureAlgorithm
deriving DecidableEq, Repr

/-- `token.is_expired(now)`. -/
def PCCapToken.is_expired (t : PCCapToken) (now : Int) : Bool :=
  now ≥ t.expires_at

/-- `token.canonical_bytes()`: `json.dumps(to_dict(include_signature=False),
sort_keys=True, separators=(",", ":"))` — every field except `signature`, keys
in sorted order. -/
def PCCapToken.canonical_bytes (t : PCCapToken) : List Char :=
  lbrace :: keyLit "algorithm" ++ jsonStr (SignatureAlgorithm.value t.algorithm) ++
  ',' :: keyLit "expires_at" ++ jsonInt t.expires_at ++
  ',' :: keyLit "issued_at" ++ jsonInt t.issued_at ++
  ',' :: keyLit "issued_by" ++ jsonStr t.issued_by ++
  ',' :: keyLit "nonce" ++ jsonOptStr t.nonce ++
  ',' :: keyLit "policy_id" ++ jsonOptStr t.policy_id ++
  ',' :: keyLit "principal_sub" ++ jsonStr t.principal_sub ++
  ',' :: keyLit "scope" ++ scopeJson t.scope ++
  ',' :: keyLit "single_use" ++ jsonBool t.single_use ++
  ',' :: keyLit "token_id" ++ jsonStr t.token_id ++ [rbrace]

/-- The keyed-MAC primitive (HMAC-SHA256 with base64 transport in the source):
secret and message to digest. -/
abbrev MacFn := List Char → List Char → List Char

structure Keyring where
  secret : List Char

/-- `Keyring.sign(token)`. -/
def Keyring.sign (mac : MacFn) (k : Keyring) (t : PCCapToken) : String :=
  ⟨mac k.secret (PCCapToken.canonical_bytes t)⟩

/-- `Keyring.verify(token)`: false when no (or an empty, hence falsy) signature
is present, else constant-time comparison with the recomputed signature. -/
def Keyring.verify (mac : MacFn) (k : Keyring) (t : PCCapToken) : Bool :=
  match t.signature with
  | none => false
  | some sig => if sig = "" then false else sig == Keyring.sign mac k t

/-! ## Store -/

structure PCCapStore where
  tokens : List (String × PCCapToken)
  used : List String
deriving DecidableEq, Repr

def PCCapStore.empty : PCCapStore := ⟨[], []⟩

/-- Python-dict insertion: replace in place if the key exists, else append. -/
def assocSet (l : List (String × PCCapToken)) (k : String) (v : PCCapToken) :
    List (String × PCCapToken) :=
  match l with
  | [] => [(k, v)]
  | (k', v') :: rest =>
    if k' = k then (k, v) :: rest else (k', v') :: assocSet rest k v

/-- `store(token)`. -/
def PCCapStore.store (s : PCCapStore) (t : PCCapToken) : PCCapStore :=
  { s with tokens := assocSet s.tokens t.token_id t }

/-- `get(token_id)`. -/
def PCCapStore.get (s : PCCapStore) (tid : String) : Option PCCapToken :=
  (s.tokens.find? (fun kv => kv.fst == tid)).map Prod.snd

/-- `revoke(token_id)`: when the id is in the issued map, delete it there and
discard it from the consumed set; otherwise return `False` unchanged. -/
def PCCapStore.revoke (s : PCCapStore) (tid : String) : Bool × PCCapStore :=
  if s.tokens.any (fun kv => kv.fst == tid) then
    (true, ⟨s.tokens.filter (fun kv => !(kv.fst == tid)),
            s.used.filter (fun x => !(x == tid))⟩)
  else (false, s)

/-- `mark_used(token_id)`: first-consumption-wins test-and-set. -/
def PCCapStore.mark_used (s : PCCapStore) (tid : String) : Bool × PCCapStore :=
  if s.used.contains tid then (false, s)
  else (true, { s with used := s.used ++ [tid] })

/-- `is_used(token_id)`. -/
def PCCapStore.is_used (s : PCCapStore) (tid : String) : Bool :=
  s.used.contains tid

/-- `cleanup_expired(now)`: drop every expired stored token from the issued map
and discard its id from the consumed set; return the count removed. -/
def PCCapStore.cleanup_expired (s : PCCapStore) (now : Int) : Nat × PCCapStore :=
  let expired := (s.tokens.filter (fun kv => PCCapToken.is_expired kv.snd now)).map Prod.fst
  (expired.length,
    ⟨s.tokens.filter (fun kv => !PCCapToken.is_expired kv.snd now),
     s.used.filter (fun x => !expired.contains x)⟩)

/-- `list_for_principal(sub)`: the principal's stored tokens that are neither
expired nor consumed, in insertion order. -/
def PCCapStore.list_for_principal (s : PCCapStore) (sub : String) (now : Int) :
    List PCCapToken :=
  (s.tokens.map Prod.snd).filter
    (fun t => t.principal_sub == sub && !PCCapToken.is_expired t now &&
      !PCCapStore.is_used s t.token_id)

/-! ## Principal, minting, enforcement, policy engine -/

/-- Modelled from the spec: `Principal` is imported from `assay_gateway.types`
(not among the sources); the spec describes it as a subject identifier plus an
actor classification.  The PCCap core reads only `sub`. -/
structure Principal where
  sub : String
  actor_type : String
deriving DecidableEq, Repr

/-- `mint_pccap(...)`: clock and randomness (`now`, fresh `token_id`, `nonce`)
are explicit parameters. -/
def mint_pccap (principal : Principal) (scope : PCCapScope) (issued_by : String)
    (keyring : Keyring) (mac : MacFn) (ttl_seconds : Int)
    (policy_id : Option String) (single_use : Bool)
    (now : Int) (token_id : String) (nonce : String) : PCCapToken :=
  let t0 : PCCapToken :=
    { token_id := token_id
      principal_sub := principal.sub
      scope := scope
      issued_at := now
      expires_at := now + ttl_seconds
      issued_by := issued_by
      policy_id := policy_id
      single_use := single_use
      nonce := some nonce
      signature := none
      algorithm := SignatureAlgorithm.HMAC_SHA256 }
  { t0 with signature := some (Keyring.sign mac keyring t0) }

inductive ReasonCodePCCap where
  | DENY_PCCAP_EXPIRED
  | DENY_PCCAP_SCOPE_MISMATCH
  | DENY_PCCAP_SIGNATURE_INVALID
  | DENY_PCCAP_PRINCIPAL_MISMATCH
  | DENY_PCCAP_REPLAY
  | ALLOW_PCCAP_VALID
deriving DecidableEq, Repr

def ReasonCodePCCap.value : ReasonCodePCCap → String
  | .DENY_PCCAP_EXPIRED => "DENY_PCCAP_EXPIRED"
  | .DENY_PCCAP_SCOPE_MISMATCH => "DENY_PCCAP_SCOPE_MISMATCH"
  | .DENY_PCCAP_SIGNATURE_INVALID => "DENY_PCCAP_SIGNATURE_INVALID"
  | .DENY_PCCAP_PRINCIPAL_MISMATCH => "DENY_PCCAP_PRINCIPAL_MISMATCH"
  | .DENY_PCCAP_REPLAY => "DENY_PCCAP_REPLAY"
  | .ALLOW_PCCAP_VALID => "ALLOW_PCCAP_VALID"

/-- `enforce_pccap(principal, tool_name, arguments, token, keyring)`:
expiry, then signature, then principal binding, then scope, short-circuiting.
(The ISO-8601 rendering of the expiry timestamp inside the human-readable
message is abstracted to its decimal form.) -/
def enforce_pccap (now : Int) (cwd : String) (mac : MacFn)
    (principal : Principal) (tool_name : String)
    (arguments : List (String × String)) (token : PCCapToken)
    (keyring : Keyring) : Bool × String × ReasonCodePCCap :=
  if PCCapToken.is_expired token now then
    (false, "Token " ++ token.token_id ++ " expired at " ++
      toString token.expires_at, ReasonCodePCCap.DENY_PCCAP_EXPIRED)
  else if !Keyring.verify mac keyring token then
    (false, "Token " ++ token.token_id ++ " has invalid signature",
      ReasonCodePCCap.DENY_PCCAP_SIGNATURE_INVALID)
  else if token.principal_sub ≠ principal.sub then
    (false, "Token for " ++ token.principal_sub ++ ", not " ++ principal.sub,
      ReasonCodePCCap.DENY_PCCAP_PRINCIPAL_MISMATCH)
  else
    let m := PCCapScope.matches_request token.scope tool_name arguments cwd
    if !m.fst then
      (false, "Scope mismatch: " ++ showOptArg m.snd,
        ReasonCodePCCap.DENY_PCCAP_SCOPE_MISMATCH)
    else
      (true, "PCCap " ++ token.token_id ++ " valid for " ++ tool_name,
        ReasonCodePCCap.ALLOW_PCCAP_VALID)

namespace PCCapPolicyEngine

/-- `PCCapPolicyEngine.mint`: mint, store, return. -/
def mint (keyring : Keyring) (mac : MacFn) (s : PCCapStore)
    (principal : Principal) (scope : PCCapScope) (issued_by : String)
    (ttl_seconds : Int) (policy_id : Option String) (single_use : Bool)
    (now : Int) (token_id : String) (nonce : String) :
    PCCapToken × PCCapStore :=
  let t := mint_pccap principal scope issued_by keyring mac ttl_seconds
    policy_id single_use now token_id nonce
  (t, PCCapStore.store s t)

/-- Python truthiness of the optional `token_id` argument. -/
def tokenIdTruthy : Option String → Bool
  | none => false
  | some s => s ≠ ""

/-- The auto-discovery loop of `evaluate_with_pccap` over the principal's
active tokens. -/
def discoverLoop (keyring : Keyring) (mac : MacFn) (now : Int) (cwd : String)
    (principal : Principal) (tool_name : String)
    (arguments : List (String × String)) (s : PCCapStore) :
    List PCCapToken → (Bool × String × String) × PCCapStore
  | [] => ((false, "No valid PCCap token for " ++ tool_name, "DENY_NO_PCCAP"), s)
  | t :: rest =>
    if t.single_use && PCCapStore.is_used s t.token_id then
      discoverLoop keyring mac now cwd principal tool_name arguments s rest
    else if (PCCapScope.matches_request t.scope tool_name arguments cwd).fst then
      if t.single_use && PCCapStore.is_used s t.token_id then
        ((false, "Token " ++ t.token_id ++ " has already been used",
          ReasonCodePCCap.DENY_PCCAP_REPLAY.value), s)
      else
        let r := enforce_pccap now cwd mac principal tool_name arguments t keyring
        if r.fst then
          if t.single_use then
            let m := PCCapStore.mark_used s t.token_id
            if !m.fst then
              ((false, "Token " ++ t.token_id ++ " has already been used",
                ReasonCodePCCap.DENY_PCCAP_REPLAY.value), m.snd)
            else ((r.fst, r.snd.fst, (r.snd.snd).value), m.snd)
          else ((r.fst, r.snd.fst, (r.snd.snd).value), s)
        else discoverLoop keyring mac now cwd principal tool_name arguments s rest
    else discoverLoop keyring mac now cwd principal tool_name arguments s rest

/-- `evaluate_with_pccap(principal, tool_name, arguments, token_id)`. -/
def evaluate_with_pccap (keyring : Keyring) (mac : MacFn) (now : Int)
    (cwd : String) (s : PCCapStore) (principal : Principal)
    (tool_name : String) (arguments : List (String × String))
    (token_id : Option String) : (Bool × String × String) × PCCapStore :=
  if !tokenIdTruthy token_id then
    discoverLoop keyring mac now cwd principal tool_name arguments s
      (PCCapStore.list_for_principal s principal.sub now)
  else
    let tid := token_id.getD ""
    match PCCapStore.get s tid with
    | none => ((false, "Token " ++ tid ++ " not found", "DENY_PCCAP_NOT_FOUND"), s)
    | some token =>
      if token.single_use && PCCapStore.is_used s token.token_id then
        ((false, "Token " ++ token.token_id ++ " has already been used",
          ReasonCodePCCap.DENY_PCCAP_REPLAY.value), s)
      else
        let r := enforce_pccap now cwd mac principal tool_name arguments token keyring
        if r.fst && token.single_use then
          let m := PCCapStore.mark_used s token.token_id
          if !m.fst then
            ((false, "Token " ++ token.token_id ++ " has already been used",
              ReasonCodePCCap.DENY_PCCAP_REPLAY.value), m.snd)
          else ((r.fst, r.snd.fst, (r.snd.snd).value), m.snd)
        else ((r.fst, r.snd.fst, (r.snd.snd).value), s)

/-- `PCCapPolicyEngine.revoke`. -/
def revoke (s : PCCapStore) (tid : String) : Bool × PCCapStore :=
  PCCapStore.revoke s tid

/-- `PCCapPolicyEngine.cleanup`. -/
def cleanup (s : PCCapStore) (now : Int) : Nat × PCCapStore :=
  PCCapStore.cleanup_expired s now

end PCCapPolicyEngine

/-! ## Concrete fixtures (mirroring the repository's test fixtures) -/

/-- A concrete keyed MAC for instantiating theorems: injective in the message
and never empty, the two facts abstract HMAC-SHA256 collision-freeness. -/
def macI : MacFn := fun sec m => '#' :: (sec ++ '#' :: m)

def kr0 : Keyring := ⟨"test-secret-key-32-bytes-long!!".data⟩

def prin0 : Principal := ⟨"agent@test.com", "agent"⟩

def scope0 : PCCapScope := ⟨"fs.delete", [], some "/tmp/scratch", none⟩

/-- Token minted at `now = 100` with a 300-second TTL. -/
def tokValid : PCCapToken :=
  mint_pccap prin0 scope0 "admin@test.com" kr0 macI 300 none true 100 "tid1" "n1"

/-- Token minted at `now = 100` with `ttl_seconds = 0` (the spec's own
immediate-expiry scenario). -/
def tokZeroTtl : PCCapToken :=
  mint_pccap prin0 scope0 "admin@test.com" kr0 macI 0 none true 100 "tid0" "n0"

/-- A store whose consumed set holds an id the issued map does not. -/
def storeUsedOnly : PCCapStore := (PCCapStore.mark_used PCCapStore.empty "x").snd

/-- A single-use token whose id coincides with the consumed id `"x"`. -/
def tokConsumedId : PCCapToken :=
  mint_pccap prin0 scope0 "admin@test.com" kr0 macI 300 none true 100 "x" "n2"

/-- A store holding one already-expired and one valid token. -/
def storeTwo : PCCapStore :=
  PCCapStore.store (PCCapStore.store PCCapStore.empty tokZeroTtl) tokValid

/-- A store produced by the engine's own `mint`. -/
def storeMinted : PCCapStore :=
  (PCCapPolicyEngine.mint kr0 macI PCCapStore.empty prin0 scope0
    "admin@test.com" 300 none true 100 "tid1" "n1").snd

/-- Arguments carrying an empty-string `path` alongside a `file_path`. -/
def argsPathEmpty : List (String × String) :=
  [("path", ""), ("file_path", "/etc/passwd")]

/-- Scope equality as the serialized dict sees it: `allowed_args` compared as
a dict (up to the sorted item order `sort_keys` imposes). -/
def scopeSameDict (a b : PCCapScope) : Prop :=
  a.tool_name = b.tool_name ∧
  PCCapScope.path_prefix a = PCCapScope.path_prefix b ∧
  a.max_bytes = b.max_bytes ∧
  sortPairs a.allowed_args = sortPairs b.allowed_args

/-- Equality of every signed field (everything `canonical_bytes` covers; the
`signature` field itself is not signed). -/
def sameSignedFields (a b : PCCapToken) : Prop :=
  a.token_id = b.token_id ∧ a.principal_sub = b.principal_sub ∧
  scopeSameDict a.scope b.scope ∧ a.issued_at = b.issued_at ∧
  a.expires_at = b.expires_at ∧ a.issued_by = b.issued_by ∧
  a.policy_id = b.policy_id ∧ a.single_use = b.single_use ∧
  a.nonce = b.nonce ∧ a.algorithm = b.algorithm

instance (a b : PCCapScope) : Decidable (scopeSameDict a b) := by
  unfold scopeSameDict
  infer_instance

instance (a b : PCCapToken) : Decidable (sameSignedFields a b) := by
  unfold sameSignedFields
  infer_instance

/-- Inverse digit table (proof device for digit-string injectivity). -/
def dval : Char → Nat
  | '0' => 0 | '1' => 1 | '2' => 2 | '3' => 3 | '4' => 4
  | '5' => 5 | '6' => 6 | '7' => 7 | '8' => 8 | '9' => 9
  | _ => 42

/-- Value of a digit string, most significant first (proof device). -/
def ofDigitsV (l : List Char) : Nat :=
  l.foldl (fun a c => 10 * a + dval c) 0

/-! # Theorems -/

/-! ## C1: enforce_pccap check order and codes -/

lemma is_expired_true_iff (t : PCCapToken) (now : Int) :
    PCCapToken.is_expired t now = true ↔ now ≥ t.expires_at := by
  simp [PCCapToken.is_expired]

lemma is_expired_false_iff (t : PCCapToken) (now : Int) :
    PCCapToken.is_expired t now = false ↔ now < t.expires_at := by
  simp [PCCapToken.is_expired]

/-- C1: `enforce_pccap` checks, in order, expiry, signature, principal
binding, and scope, short-circuiting at the first failure with the distinct
codes `DENY_PCCAP_EXPIRED`, `DENY_PCCAP_SIGNATURE_INVALID`,
`DENY_PCCAP_PRINCIPAL_MISMATCH`, `DENY_PCCAP_SCOPE_MISMATCH`; it allows with
`ALLOW_PCCAP_VALID` exactly when all four checks pass, and whenever
`now ≥ expires_at` the result is a `DENY_PCCAP_EXPIRED` denial regardless of
signature, principal or scope. -/
theorem enforce_pccap_check_order (now : Int) (cwd : String) (mac : MacFn)
    (p : Principal) (tool : String) (args : List (String × String))
    (t : PCCapToken) (k : Keyring) :
    (now ≥ t.expires_at →
      (enforce_pccap now cwd mac p tool args t k).fst = false ∧
      (enforce_pccap now cwd mac p tool args t k).snd.snd =
        ReasonCodePCCap.DENY_PCCAP_EXPIRED) ∧
    (now < t.expires_at → Keyring.verify mac k t = false →
      (enforce_pccap now cwd mac p tool args t k).fst = false ∧
      (enforce_pccap now cwd mac p tool args t k).snd.snd =
        ReasonCodePCCap.DENY_PCCAP_SIGNATURE_INVALID) ∧
    (now < t.expires_at → Keyring.verify mac k t = true →
      t.principal_sub ≠ p.sub →
      (enforce_pccap now cwd mac p tool args t k).fst = false ∧
      (enforce_pccap now cwd mac p tool args t k).snd.snd =
        ReasonCodePCCap.DENY_PCCAP_PRINCIPAL_MISMATCH) ∧
    (now < t.expires_at → Keyring.verify mac k t = true →
      t.principal_sub = p.sub →
      (PCCapScope.matches_request t.scope tool args cwd).fst = false →
      (enforce_pccap now cwd mac p tool args t k).fst = false ∧
      (enforce_pccap now cwd mac p tool args t k).snd.snd =
        ReasonCodePCCap.DENY_PCCAP_SCOPE_MISMATCH) ∧
    (now < t.expires_at → Keyring.verify mac k t = true →
      t.principal_sub = p.sub →
      (PCCapScope.matches_request t.scope tool args cwd).fst = true →
      (enforce_pccap now cwd mac p tool args t k).fst = true ∧
      (enforce_pccap now cwd mac p tool args t k).snd.snd =
        ReasonCodePCCap.ALLOW_PCCAP_VALID) ∧
    ((enforce_pccap now cwd mac p tool args t k).fst = true ↔
      (now < t.expires_at ∧ Keyring.verify mac k t = true ∧
        t.principal_sub = p.sub ∧
        (PCCapScope.matches_request t.scope tool args cwd).fst = true)) ∧
    ([ReasonCodePCCap.DENY_PCCAP_EXPIRED,
      ReasonCodePCCap.DENY_PCCAP_SIGNATURE_INVALID,
      ReasonCodePCCap.DENY_PCCAP_PRINCIPAL_MISMATCH,
      ReasonCodePCCap.DENY_PCCAP_SCOPE_MISMATCH,
      ReasonCodePCCap.ALLOW_PCCAP_VALID]).Nodup := by
  refine ⟨?_, ?_, ?_, ?_, ?_, ?_, by decide⟩
  · intro h
    have hexp : PCCapToken.is_expired t now = true := (is_expired_true_iff t now).mpr h
    simp [enforce_pccap, hexp]
  · intro h hv
    have hexp : PCCapToken.is_expired t now = false := (is_expired_false_iff t now).mpr h
    simp [enforce_pccap, hexp, hv]
  · intro h hv hp
    have hexp : PCCapToken.is_expired t now = false := (is_expired_false_iff t now).mpr h
    simp [enforce_pccap, hexp, hv, hp]
  · intro h hv hp hm
    have hexp : PCCapToken.is_expired t now = false := (is_expired_false_iff t now).mpr h
    simp [enforce_pccap, hexp, hv, hp, hm]
  · intro h hv hp hm
    have hexp : PCCapToken.is_expired t now = false := (is_expired_false_iff t now).mpr h
    simp [enforce_pccap, hexp, hv, hp, hm]
  · constructor
    · intro h
      by_cases h1 : PCCapToken.is_expired t now = true
      · simp [enforce_pccap, h1] at h
      · have h1' : PCCapToken.is_expired t now = false := by
          simpa using h1
        by_cases h2 : Keyring.verify mac k t = true
        · by_cases h3 : t.principal_sub = p.sub
          · by_cases h4 : (PCCapScope.matches_request t.scope tool args cwd).fst = true
            · exact ⟨(is_expired_false_iff t now).mp h1', h2, h3, h4⟩
            · have h4' : (PCCapScope.matches_request t.scope tool args cwd).fst = false := by
                simpa using h4
              simp [enforce_pccap, h1', h2, h3, h4'] at h
          · simp [enforce_pccap, h1', h2, h3] at h
        · have h2' : Keyring.verify mac k t = false := by simpa using h2
          simp [enforce_pccap, h1', h2'] at h
    · rintro ⟨h1, h2, h3, h4⟩
      have hexp : PCCapToken.is_expired t now = false := (is_expired_false_iff t now).mpr h1
      simp [enforce_pccap, hexp, h2, h3, h4]

/-- Witness for C1 at a concrete expired token: at `now = 100` the
zero-TTL token is denied with `DENY_PCCAP_EXPIRED`. -/
theorem enforce_pccap_check_order_witness :
    (100 : Int) ≥ tokZeroTtl.expires_at ∧
    (enforce_pccap 100 "/" macI prin0 "fs.delete" [] tokZeroTtl kr0).fst = false ∧
    (enforce_pccap 100 "/" macI prin0 "fs.delete" [] tokZeroTtl kr0).snd.snd =
      ReasonCodePCCap.DENY_PCCAP_EXPIRED :=
  ⟨by decide,
   (enforce_pccap_check_order 100 "/" macI prin0 "fs.delete" [] tokZeroTtl kr0).1
     (by decide)⟩

/-! ## C5: mint timestamps (corrected: `expires_at > issued_at` needs a
positive TTL; `ttl_seconds = 0` — the spec's own immediate-expiry scenario —
produces `expires_at = issued_at`) -/

/-- C5 counterexample: minting with `ttl_seconds = 0` (legal, and used by the
spec's own expiry scenario) yields `expires_at = issued_at`, so the claimed
invariant `expires_at > issued_at` does not always hold. -/
theorem mint_zero_ttl_counterexample :
    tokZeroTtl.issued_at = 100 ∧ tokZeroTtl.expires_at = 100 ∧
    ¬(tokZeroTtl.expires_at > tokZeroTtl.issued_at) := by
  refine ⟨rfl, rfl, by decide⟩

/-- C5 (amended): every minted token satisfies `issued_at = now` and
`expires_at = now + ttl_seconds` (for both `mint_pccap` and the engine's
`mint`), and `expires_at > issued_at` holds whenever `ttl_seconds > 0`. -/
theorem mint_timestamps (p : Principal) (sc : PCCapScope) (ib : String)
    (k : Keyring) (mac : MacFn) (ttl : Int) (pid : Option String) (su : Bool)
    (now : Int) (tid nonce : String) (s : PCCapStore) :
    (mint_pccap p sc ib k mac ttl pid su now tid nonce).issued_at = now ∧
    (mint_pccap p sc ib k mac ttl pid su now tid nonce).expires_at = now + ttl ∧
    (PCCapPolicyEngine.mint k mac s p sc ib ttl pid su now tid nonce).fst.issued_at = now ∧
    (PCCapPolicyEngine.mint k mac s p sc ib ttl pid su now tid nonce).fst.expires_at = now + ttl ∧
    (0 < ttl →
      (mint_pccap p sc ib k mac ttl pid su now tid nonce).issued_at <
        (mint_pccap p sc ib k mac ttl pid su now tid nonce).expires_at) := by
  refine ⟨rfl, rfl, rfl, rfl, ?_⟩
  intro h
  show now < now + ttl
  omega

/-- Witness for C5's amended theorem at a concrete positive TTL. -/
theorem mint_timestamps_witness :
    tokValid.issued_at = 100 ∧ tokValid.expires_at = 400 ∧
    tokValid.issued_at < tokValid.expires_at := by
  have h := mint_timestamps prin0 scope0 "admin@test.com" kr0 macI 300 none
    true 100 "tid1" "n1" PCCapStore.empty
  exact ⟨h.1, h.2.1, h.2.2.2.2 (by decide)⟩

/-! ## C6: revoke (corrected: an id only in the consumed set is left there) -/

lemma find?_isSome_eq_any (p : α → Bool) (l : List α) :
    (l.find? p).isSome = l.any p := by
  induction l with
  | nil => rfl
  | cons a l ih =>
    by_cases h : p a <;> simp [List.find?_cons, h, ih]

lemma find?_filter_out_eq_none (l : List (String × PCCapToken)) (tid : String) :
    (l.filter (fun kv => !(kv.fst == tid))).find? (fun kv => kv.fst == tid) = none := by
  rw [List.find?_eq_none]
  intro x hx
  rcases List.mem_filter.mp hx with ⟨_, hpx⟩
  simpa using hpx

lemma any_filter_out_eq_false (l : List (String × PCCapToken)) (tid : String) :
    (l.filter (fun kv => !(kv.fst == tid))).any (fun kv => kv.fst == tid) = false := by
  rw [← find?_isSome_eq_any, find?_filter_out_eq_none]
  rfl

/-- C6 counterexample: with `"x"` in the consumed set but not the issued map
(reachable via `mark_used` alone), `revoke "x"` returns `false` and leaves
`"x"` consumed — the claim's "removes the id from the consumed set even when
the issued map no longer holds it" fails. -/
theorem revoke_consumed_only_counterexample :
    PCCapStore.is_used storeUsedOnly "x" = true ∧
    PCCapStore.get storeUsedOnly "x" = none ∧
    (PCCapStore.revoke storeUsedOnly "x").fst = false ∧
    PCCapStore.is_used (PCCapStore.revoke storeUsedOnly "x").snd "x" = true := by
  decide

/-- C6 (amended): `revoke` reports whether a token existed under the id; when
one does, it removes the id from both the issued map and the consumed set;
when none does, it changes nothing (in particular an id present only in the
consumed set stays there); its effect on the store is idempotent. -/
theorem revoke_spec (s : PCCapStore) (tid : String) :
    ((PCCapStore.revoke s tid).fst = (PCCapStore.get s tid).isSome) ∧
    ((PCCapStore.get s tid).isSome = true →
      PCCapStore.get (PCCapStore.revoke s tid).snd tid = none ∧
      PCCapStore.is_used (PCCapStore.revoke s tid).snd tid = false) ∧
    ((PCCapStore.get s tid).isSome = false → PCCapStore.revoke s tid = (false, s)) ∧
    (PCCapStore.revoke (PCCapStore.revoke s tid).snd tid).snd =
      (PCCapStore.revoke s tid).snd := by
  have hany : (PCCapStore.get s tid).isSome =
      s.tokens.any (fun kv => kv.fst == tid) := by
    simp [PCCapStore.get, find?_isSome_eq_any]
  refine ⟨?_, ?_, ?_, ?_⟩
  · by_cases h : s.tokens.any (fun kv => kv.fst == tid) = true
    · simp [PCCapStore.revoke, h, hany]
    · have h' : s.tokens.any (fun kv => kv.fst == tid) = false :=
        Bool.eq_false_iff.mpr h
      simp [PCCapStore.revoke, h', hany]
  · intro h
    rw [hany] at h
    constructor
    · simp [PCCapStore.revoke, h, PCCapStore.get, find?_filter_out_eq_none]
    · simp [PCCapStore.revoke, h, PCCapStore.is_used]
  · intro h
    rw [hany] at h
    simp [PCCapStore.revoke, h]
  · by_cases h : s.tokens.any (fun kv => kv.fst == tid) = true
    · have h2 := any_filter_out_eq_false s.tokens tid
      simp [PCCapStore.revoke, h, h2]
    · have h' : s.tokens.any (fun kv => kv.fst == tid) = false :=
        Bool.eq_false_iff.mpr h
      simp [PCCapStore.revoke, h']

/-- Witness for C6's amended theorem at a concrete store: revoking the only
stored token removes it from both maps. -/
theorem revoke_spec_witness :
    ((PCCapStore.get storeMinted "tid1").isSome = true) ∧
    PCCapStore.get (PCCapStore.revoke storeMinted "tid1").snd "tid1" = none ∧
    PCCapStore.is_used (PCCapStore.revoke storeMinted "tid1").snd "tid1" = false := by
  have h := (revoke_spec storeMinted "tid1").2.1 (by decide)
  exact ⟨by decide, h.1, h.2⟩

/-! ## C10: store never modifies the consumed set -/

lemma find?_assocSet_self (l : List (String × PCCapToken)) (k : String)
    (v : PCCapToken) :
    (assocSet l k v).find? (fun kv => kv.fst == k) = some (k, v) := by
  induction l with
  | nil => simp [assocSet, List.find?_cons]
  | cons hd rest ih =>
    rcases hd with ⟨k', v'⟩
    by_cases h : k' = k
    · simp [assocSet, h, List.find?_cons]
    · simp [assocSet, h, List.find?_cons, ih]

lemma get_store_self (s : PCCapStore) (t : PCCapToken) :
    PCCapStore.get (PCCapStore.store s t) t.token_id = some t := by
  simp [PCCapStore.get, PCCapStore.store, find?_assocSet_self]

/-- C10: `store` never modifies the consumed set (`is_used` is unchanged by
it for every id), so a `single_use` token re-stored under a previously
consumed id is still denied as a replay by `evaluate_with_pccap`. -/
theorem store_preserves_consumed (s : PCCapStore) (t : PCCapToken) (x : String)
    (k : Keyring) (mac : MacFn) (now : Int) (cwd : String) (p : Principal)
    (tool : String) (args : List (String × String)) :
    PCCapStore.is_used (PCCapStore.store s t) x = PCCapStore.is_used s x ∧
    (t.single_use = true → t.token_id ≠ "" →
      PCCapStore.is_used s t.token_id = true →
      PCCapPolicyEngine.evaluate_with_pccap k mac now cwd
          (PCCapStore.store s t) p tool args (some t.token_id) =
        ((false, "Token " ++ t.token_id ++ " has already been used",
          ReasonCodePCCap.DENY_PCCAP_REPLAY.value), PCCapStore.store s t)) := by
  constructor
  · rfl
  · intro hsu hne hused
    have htr : PCCapPolicyEngine.tokenIdTruthy (some t.token_id) = true := by
      simp [PCCapPolicyEngine.tokenIdTruthy, hne]
    have hget := get_store_self s t
    have hused' : PCCapStore.is_used (PCCapStore.store s t) t.token_id = true := hused
    simp [PCCapPolicyEngine.evaluate_with_pccap, htr, hget, hsu, hused']

/-- Witness for C10: a single-use token stored under an already-consumed id is
denied as a replay. -/
theorem store_preserves_consumed_witness :
    PCCapStore.is_used (PCCapStore.store storeUsedOnly tokConsumedId) "x" = true ∧
    (PCCapPolicyEngine.evaluate_with_pccap kr0 macI 100 "/"
        (PCCapStore.store storeUsedOnly tokConsumedId) prin0 "fs.delete"
        [("path", "/tmp/scratch/a")] (some tokConsumedId.token_id)).fst.snd.snd =
      ReasonCodePCCap.DENY_PCCAP_REPLAY.value := by
  have h := (store_preserves_consumed storeUsedOnly tokConsumedId "x" kr0 macI
    100 "/" prin0 "fs.delete" [("path", "/tmp/scratch/a")]).2
    (by decide) (by decide) (by decide)
  exact ⟨by decide, by rw [h]⟩

/-! ## C8: cleanup_expired -/

lemma find?_filter_keys (q : String × PCCapToken → Bool)
    (l : List (String × PCCapToken)) (hnd : (l.map Prod.fst).Nodup) (tid : String) :
    (l.filter q).find? (fun kv => kv.fst == tid) =
      (l.find? (fun kv => kv.fst == tid)).bind
        (fun kv => if q kv then some kv else none) := by
  induction l with
  | nil => rfl
  | cons kv rest ih =>
    rw [List.map_cons] at hnd
    rcases List.nodup_cons.mp hnd with ⟨hnotin, hnd'⟩
    by_cases hk : kv.fst = tid
    · have hpred : (fun kv : String × PCCapToken => kv.fst == tid) kv = true := by
        simp [hk]
      have hnone : (rest.filter q).find? (fun kv => kv.fst == tid) = none := by
        rw [List.find?_eq_none]
        intro x hx
        rcases List.mem_filter.mp hx with ⟨hmem, _⟩
        intro hpx
        apply hnotin
        have hxf : x.fst = tid := by simpa using hpx
        rw [hk, ← hxf]
        exact List.mem_map_of_mem Prod.fst hmem
      by_cases hq : q kv = true
      · rw [List.filter_cons_of_pos hq,
          @List.find?_cons_of_pos _ (fun kv => kv.fst == tid) kv (rest.filter q) hpred,
          @List.find?_cons_of_pos _ (fun kv => kv.fst == tid) kv rest hpred]
        simp [hq]
      · rw [List.filter_cons_of_neg hq,
          @List.find?_cons_of_pos _ (fun kv => kv.fst == tid) kv rest hpred, hnone]
        have hq' : q kv = false := Bool.eq_false_iff.mpr hq
        simp [hq']
    · have hpred : ¬((fun kv : String × PCCapToken => kv.fst == tid) kv = true) := by
        simp [hk]
      by_cases hq : q kv = true
      · rw [List.filter_cons_of_pos hq,
          @List.find?_cons_of_neg _ (fun kv => kv.fst == tid) kv (rest.filter q) hpred,
          @List.find?_cons_of_neg _ (fun kv => kv.fst == tid) kv rest hpred]
        exact ih hnd'
      · rw [List.filter_cons_of_neg hq,
          @List.find?_cons_of_neg _ (fun kv => kv.fst == tid) kv rest hpred]
        exact ih hnd'

lemma find?_key_eq_some_iff_mem (l : List (String × PCCapToken))
    (hnd : (l.map Prod.fst).Nodup) (x : String) (t : PCCapToken) :
    (l.find? (fun kv => kv.fst == x)).map Prod.snd = some t ↔ (x, t) ∈ l := by
  induction l with
  | nil => simp
  | cons kv rest ih =>
    rw [List.map_cons] at hnd
    rcases List.nodup_cons.mp hnd with ⟨hnotin, hnd'⟩
    by_cases hk : kv.fst = x
    · have hpred : (kv.fst == x) = true := by simp [hk]
      rw [@List.find?_cons_of_pos _ (fun kv => kv.fst == x) kv rest hpred]
      constructor
      · intro h
        have hsnd : kv.snd = t := by simpa using h
        have hkv : kv = (x, t) := by
          cases kv
          simp_all
        rw [hkv]
        exact List.mem_cons_self _ _
      · intro h
        rcases List.mem_cons.mp h with h1 | h1
        · rw [← h1]
          rfl
        · exfalso
          apply hnotin
          have h2 : (x, t).fst ∈ rest.map Prod.fst := List.mem_map_of_mem Prod.fst h1
          simpa [hk] using h2
    · have hpred : ¬((kv.fst == x) = true) := by simp [hk]
      rw [@List.find?_cons_of_neg _ (fun kv => kv.fst == x) kv rest hpred, ih hnd']
      constructor
      · exact fun h => List.mem_cons_of_mem _ h
      · intro h
        rcases List.mem_cons.mp h with h1 | h1
        · exfalso; apply hk; rw [← h1]
        · exact h1

lemma get_eq_some_iff_mem (s : PCCapStore) (x : String) (t : PCCapToken)
    (hnd : (s.tokens.map Prod.fst).Nodup) :
    PCCapStore.get s x = some t ↔ (x, t) ∈ s.tokens := by
  unfold PCCapStore.get
  exact find?_key_eq_some_iff_mem s.tokens hnd x t

/-- C8: `cleanup_expired(now)` removes exactly the stored tokens whose
`expires_at` has passed, from both the issued map and the consumed set,
returns the number removed, and leaves every non-expired token's issued-map
and consumed-set membership unchanged; concretely, with one expired and one
valid token stored it returns 1 and only the expired id becomes
unretrievable. -/
theorem cleanup_expired_spec (s : PCCapStore) (now : Int)
    (hnd : (s.tokens.map Prod.fst).Nodup) :
    ((PCCapStore.cleanup_expired s now).fst =
      (s.tokens.filter (fun kv => PCCapToken.is_expired kv.snd now)).length) ∧
    (∀ tid, PCCapStore.get (PCCapStore.cleanup_expired s now).snd tid =
      (PCCapStore.get s tid).bind
        (fun t => if PCCapToken.is_expired t now then none else some t)) ∧
    (∀ x, PCCapStore.is_used (PCCapStore.cleanup_expired s now).snd x = true ↔
      (PCCapStore.is_used s x = true ∧
        ¬∃ t, PCCapStore.get s x = some t ∧ PCCapToken.is_expired t now = true)) ∧
    ((PCCapStore.cleanup_expired storeTwo 150).fst = 1 ∧
      PCCapStore.get (PCCapStore.cleanup_expired storeTwo 150).snd "tid0" = none ∧
      PCCapStore.get (PCCapStore.cleanup_expired storeTwo 150).snd "tid1" =
        some tokValid) := by
  refine ⟨by simp [PCCapStore.cleanup_expired], ?_, ?_, by decide, by decide, by decide⟩
  · intro tid
    unfold PCCapStore.cleanup_expired PCCapStore.get
    simp only
    rw [find?_filter_keys (fun kv => !PCCapToken.is_expired kv.snd now) s.tokens hnd tid]
    cases hf : s.tokens.find? (fun kv => kv.fst == tid) with
    | none => simp
    | some kv =>
      by_cases hq : PCCapToken.is_expired kv.snd now = true
      · simp [hq]
      · have hq' : PCCapToken.is_expired kv.snd now = false := Bool.eq_false_iff.mpr hq
        simp [hq']
  · intro x
    have hmem : (((s.tokens.filter (fun kv => PCCapToken.is_expired kv.snd now)).map
        Prod.fst).contains x = true) ↔
        ∃ t, PCCapStore.get s x = some t ∧ PCCapToken.is_expired t now = true := by
      rw [List.elem_iff]
      constructor
      · intro h
        rcases List.mem_map.mp h with ⟨kv, hkv, hfst⟩
        rcases List.mem_filter.mp hkv with ⟨hmem', hq⟩
        refine ⟨kv.snd, ?_, hq⟩
        rw [get_eq_some_iff_mem s x kv.snd hnd]
        rw [← hfst]
        simpa using hmem'
      · rintro ⟨t, hget, hq⟩
        rw [get_eq_some_iff_mem s x t hnd] at hget
        apply List.mem_map.mpr
        exact ⟨(x, t), List.mem_filter.mpr ⟨hget, hq⟩, rfl⟩
    have hused : PCCapStore.is_used (PCCapStore.cleanup_expired s now).snd x = true ↔
        (x ∈ s.used ∧
          ¬(((s.tokens.filter (fun kv => PCCapToken.is_expired kv.snd now)).map
            Prod.fst).contains x = true)) := by
      unfold PCCapStore.cleanup_expired PCCapStore.is_used
      simp only
      rw [List.elem_iff, List.mem_filter]
      constructor
      · rintro ⟨h1, h2⟩
        exact ⟨h1, by simpa using h2⟩
      · rintro ⟨h1, h2⟩
        exact ⟨h1, by simpa using h2⟩
    rw [hused]
    constructor
    · rintro ⟨hin, hnc⟩
      exact ⟨List.elem_iff.mpr hin, fun hex => hnc (hmem.mpr hex)⟩
    · rintro ⟨hin, hnex⟩
      exact ⟨List.elem_iff.mp hin, fun hc => hnex (hmem.mp hc)⟩

/-- Witness for C8 at the two-token store (Nodup keys discharged
concretely). -/
theorem cleanup_expired_spec_witness :
    (storeTwo.tokens.map Prod.fst).Nodup ∧
    (PCCapStore.cleanup_expired storeTwo 150).fst = 1 := by
  have h := cleanup_expired_spec storeTwo 150 (by decide)
  exact ⟨by decide, h.2.2.2.1⟩

/-! ## C9: empty-string token_id takes the auto-discovery path -/

lemma reasonCode_value_ne_notfound (c : ReasonCodePCCap) :
    c.value ≠ "DENY_PCCAP_NOT_FOUND" := by
  cases c <;> decide

lemma discoverLoop_code_ne (k : Keyring) (mac : MacFn) (now : Int) (cwd : String)
    (p : Principal) (tool : String) (args : List (String × String)) :
    ∀ (lst : List PCCapToken) (s : PCCapStore),
      (PCCapPolicyEngine.discoverLoop k mac now cwd p tool args s lst).fst.snd.snd ≠
        "DENY_PCCAP_NOT_FOUND" := by
  intro lst
  induction lst with
  | nil =>
    intro s
    simp [PCCapPolicyEngine.discoverLoop]
  | cons t rest ih =>
    intro s
    by_cases h1 : (t.single_use && PCCapStore.is_used s t.token_id) = true
    · simpa [PCCapPolicyEngine.discoverLoop, h1] using ih s
    · have h1' : (t.single_use && PCCapStore.is_used s t.token_id) = false :=
        Bool.eq_false_iff.mpr h1
      by_cases h2 : (PCCapScope.matches_request t.scope tool args cwd).fst = true
      · by_cases h3 : (enforce_pccap now cwd mac p tool args t k).fst = true
        · by_cases h4 : t.single_use = true
          · have husd : PCCapStore.is_used s t.token_id = false := by
              simpa [h4] using h1'
            by_cases h5 : (PCCapStore.mark_used s t.token_id).fst = true
            · simp [PCCapPolicyEngine.discoverLoop, h1', h2, h3, h4, h5, husd]
              exact reasonCode_value_ne_notfound _
            · have h5' : (PCCapStore.mark_used s t.token_id).fst = false :=
                Bool.eq_false_iff.mpr h5
              simp [PCCapPolicyEngine.discoverLoop, h1', h2, h3, h4, h5', husd]
              decide
          · have h4' : t.single_use = false := Bool.eq_false_iff.mpr h4
            simp [PCCapPolicyEngine.discoverLoop, h1', h2, h3, h4']
            exact reasonCode_value_ne_notfound _
        · have h3' : (enforce_pccap now cwd mac p tool args t k).fst = false :=
            Bool.eq_false_iff.mpr h3
          simpa [PCCapPolicyEngine.discoverLoop, h1', h2, h3'] using ih s
      · have h2' : (PCCapScope.matches_request t.scope tool args cwd).fst = false :=
          Bool.eq_false_iff.mpr h2
        simpa [PCCapPolicyEngine.discoverLoop, h1', h2'] using ih s

/-- C9: calling `evaluate_with_pccap` with `token_id = ""` behaves exactly as
if `token_id` were omitted — it takes the auto-discovery path over the
principal's active tokens (result and store effect identical) and never denies
with the `DENY_PCCAP_NOT_FOUND` code. -/
theorem evaluate_empty_token_id (k : Keyring) (mac : MacFn) (now : Int)
    (cwd : String) (s : PCCapStore) (p : Principal) (tool : String)
    (args : List (String × String)) :
    (PCCapPolicyEngine.evaluate_with_pccap k mac now cwd s p tool args (some "") =
      PCCapPolicyEngine.evaluate_with_pccap k mac now cwd s p tool args none) ∧
    (PCCapPolicyEngine.evaluate_with_pccap k mac now cwd s p tool args
        (some "")).fst.snd.snd ≠ "DENY_PCCAP_NOT_FOUND" := by
  have he : PCCapPolicyEngine.tokenIdTruthy (some "") = false := by decide
  have hn : PCCapPolicyEngine.tokenIdTruthy none = false := rfl
  constructor
  · simp [PCCapPolicyEngine.evaluate_with_pccap, he, hn]
  · simp only [PCCapPolicyEngine.evaluate_with_pccap, he, Bool.not_false, if_pos]
    exact discoverLoop_code_ne k mac now cwd p tool args _ s

/-- Witness for C9 at a concrete store. -/
theorem evaluate_empty_token_id_witness :
    PCCapPolicyEngine.evaluate_with_pccap kr0 macI 150 "/" storeMinted prin0
        "fs.delete" [("path", "/tmp/scratch/f")] (some "") =
      PCCapPolicyEngine.evaluate_with_pccap kr0 macI 150 "/" storeMinted prin0
        "fs.delete" [("path", "/tmp/scratch/f")] none :=
  (evaluate_empty_token_id kr0 macI 150 "/" storeMinted prin0 "fs.delete"
    [("path", "/tmp/scratch/f")]).1

/-! ## C4: single-use consumption and replay -/

lemma enforce_true_eq (now : Int) (cwd : String) (mac : MacFn) (p : Principal)
    (tool : String) (args : List (String × String)) (t : PCCapToken)
    (k : Keyring) (h : (enforce_pccap now cwd mac p tool args t k).fst = true) :
    enforce_pccap now cwd mac p tool args t k =
      (true, "PCCap " ++ t.token_id ++ " valid for " ++ tool,
        ReasonCodePCCap.ALLOW_PCCAP_VALID) := by
  by_cases h1 : PCCapToken.is_expired t now = true
  · simp [enforce_pccap, h1] at h
  · have h1' : PCCapToken.is_expired t now = false := Bool.eq_false_iff.mpr h1
    by_cases h2 : Keyring.verify mac k t = true
    · by_cases h3 : t.principal_sub = p.sub
      · by_cases h4 : (PCCapScope.matches_request t.scope tool args cwd).fst = true
        · simp [enforce_pccap, h1', h2, h3, h4]
        · have h4' : (PCCapScope.matches_request t.scope tool args cwd).fst = false :=
            Bool.eq_false_iff.mpr h4
          simp [enforce_pccap, h1', h2, h3, h4'] at h
      · simp [enforce_pccap, h1', h2, h3] at h
    · have h2' : Keyring.verify mac k t = false := Bool.eq_false_iff.mpr h2
      simp [enforce_pccap, h1', h2'] at h

lemma evaluate_replay_of_used (k : Keyring) (mac : MacFn) (now : Int)
    (cwd : String) (s : PCCapStore) (p : Principal) (tool : String)
    (args : List (String × String)) (tid : String) (t : PCCapToken)
    (htid : tid ≠ "") (hget : PCCapStore.get s tid = some t)
    (htok : t.token_id = tid) (hsu : t.single_use = true)
    (hused : PCCapStore.is_used s tid = true) :
    PCCapPolicyEngine.evaluate_with_pccap k mac now cwd s p tool args (some tid) =
      ((false, "Token " ++ tid ++ " has already been used",
        ReasonCodePCCap.DENY_PCCAP_REPLAY.value), s) := by
  have htr : PCCapPolicyEngine.tokenIdTruthy (some tid) = true := by
    simp [PCCapPolicyEngine.tokenIdTruthy, htid]
  simp [PCCapPolicyEngine.evaluate_with_pccap, htr, hget, htok, hsu, hused]

/-- C4: for a stored `single_use` token presented by id, an unconsumed token
with a successful `enforce` yields exactly one `ALLOW_PCCAP_VALID` success
that marks the id consumed while leaving the issued map unchanged; any call
while the id is consumed — equivalently, whenever `mark_used` after a
successful `enforce` would fail — is denied with `DENY_PCCAP_REPLAY`, and
every subsequent call with the same id after the success is denied with
`DENY_PCCAP_REPLAY`. -/
theorem evaluate_single_use_consumption (k : Keyring) (mac : MacFn) (now : Int)
    (cwd : String) (s : PCCapStore) (p : Principal) (tool : String)
    (args : List (String × String)) (tid : String) (t : PCCapToken)
    (htid : tid ≠ "") (hget : PCCapStore.get s tid = some t)
    (htok : t.token_id = tid) (hsu : t.single_use = true) :
    (PCCapStore.is_used s tid = false →
      (enforce_pccap now cwd mac p tool args t k).fst = true →
      (PCCapPolicyEngine.evaluate_with_pccap k mac now cwd s p tool args
          (some tid)).fst =
        (true, "PCCap " ++ tid ++ " valid for " ++ tool, "ALLOW_PCCAP_VALID") ∧
      (PCCapPolicyEngine.evaluate_with_pccap k mac now cwd s p tool args
          (some tid)).snd.tokens = s.tokens ∧
      PCCapStore.is_used
        (PCCapPolicyEngine.evaluate_with_pccap k mac now cwd s p tool args
          (some tid)).snd tid = true) ∧
    (PCCapStore.is_used s tid = true →
      PCCapPolicyEngine.evaluate_with_pccap k mac now cwd s p tool args
          (some tid) =
        ((false, "Token " ++ tid ++ " has already been used",
          ReasonCodePCCap.DENY_PCCAP_REPLAY.value), s)) ∧
    (PCCapStore.is_used s tid = false →
      (enforce_pccap now cwd mac p tool args t k).fst = true →
      ∀ (now2 : Int) (p2 : Principal) (tool2 : String)
        (args2 : List (String × String)),
        (PCCapPolicyEngine.evaluate_with_pccap k mac now2 cwd
            (PCCapPolicyEngine.evaluate_with_pccap k mac now cwd s p tool args
              (some tid)).snd p2 tool2 args2 (some tid)).fst.snd.snd =
          ReasonCodePCCap.DENY_PCCAP_REPLAY.value) ∧
    ((enforce_pccap now cwd mac p tool args t k).fst = true →
      (PCCapStore.mark_used s tid).fst = false →
      (PCCapPolicyEngine.evaluate_with_pccap k mac now cwd s p tool args
          (some tid)).fst.snd.snd = ReasonCodePCCap.DENY_PCCAP_REPLAY.value) := by
  have htr : PCCapPolicyEngine.tokenIdTruthy (some tid) = true := by
    simp [PCCapPolicyEngine.tokenIdTruthy, htid]
  have hmark : ∀ hu : PCCapStore.is_used s tid = false,
      PCCapStore.mark_used s tid = (true, { s with used := s.used ++ [tid] }) := by
    intro hu
    simp [PCCapStore.mark_used, PCCapStore.is_used] at hu ⊢
    simp [hu]
  refine ⟨?_, ?_, ?_, ?_⟩
  · intro hu henf
    have henf' := enforce_true_eq now cwd mac p tool args t k henf
    have hev : PCCapPolicyEngine.evaluate_with_pccap k mac now cwd s p tool args
        (some tid) =
        ((true, "PCCap " ++ tid ++ " valid for " ++ tool, "ALLOW_PCCAP_VALID"),
          { s with used := s.used ++ [tid] }) := by
      simp [PCCapPolicyEngine.evaluate_with_pccap, htr, hget, htok, hsu, hu,
        henf', hmark hu, ReasonCodePCCap.value]
    rw [hev]
    refine ⟨rfl, rfl, ?_⟩
    simp [PCCapStore.is_used]
  · intro hu
    exact evaluate_replay_of_used k mac now cwd s p tool args tid t htid hget
      htok hsu hu
  · intro hu henf now2 p2 tool2 args2
    have henf' := enforce_true_eq now cwd mac p tool args t k henf
    have hev : PCCapPolicyEngine.evaluate_with_pccap k mac now cwd s p tool args
        (some tid) =
        ((true, "PCCap " ++ tid ++ " valid for " ++ tool, "ALLOW_PCCAP_VALID"),
          { s with used := s.used ++ [tid] }) := by
      simp [PCCapPolicyEngine.evaluate_with_pccap, htr, hget, htok, hsu, hu,
        henf', hmark hu, ReasonCodePCCap.value]
    rw [hev]
    have hget2 : PCCapStore.get { s with used := s.used ++ [tid] } tid = some t := hget
    have hused2 : PCCapStore.is_used { s with used := s.used ++ [tid] } tid = true := by
      simp [PCCapStore.is_used]
    rw [evaluate_replay_of_used k mac now2 cwd _ p2 tool2 args2 tid t htid hget2
      htok hsu hused2]
  · intro henf hmarkf
    have hu : PCCapStore.is_used s tid = true := by
      by_cases h : PCCapStore.is_used s tid = true
      · exact h
      · have h' : PCCapStore.is_used s tid = false := Bool.eq_false_iff.mpr h
        rw [hmark h'] at hmarkf
        simp at hmarkf
    rw [evaluate_replay_of_used k mac now cwd s p tool args tid t htid hget
      htok hsu hu]

/-- Witness for C4 at the engine-minted store: the first presentation of
`tid1` succeeds and the second is a replay denial. -/
theorem evaluate_single_use_consumption_witness :
    (PCCapPolicyEngine.evaluate_with_pccap kr0 macI 150 "/" storeMinted prin0
        "fs.delete" [("path", "/tmp/scratch/f")] (some "tid1")).fst =
      (true, "PCCap " ++ "tid1" ++ " valid for " ++ "fs.delete",
        "ALLOW_PCCAP_VALID") ∧
    (PCCapPolicyEngine.evaluate_with_pccap kr0 macI 160 "/"
        (PCCapPolicyEngine.evaluate_with_pccap kr0 macI 150 "/" storeMinted
          prin0 "fs.delete" [("path", "/tmp/scratch/f")] (some "tid1")).snd
        prin0 "fs.delete" [("path", "/tmp/scratch/f")]
        (some "tid1")).fst.snd.snd = ReasonCodePCCap.DENY_PCCAP_REPLAY.value := by
  have h := evaluate_single_use_consumption kr0 macI 150 "/" storeMinted prin0
    "fs.delete" [("path", "/tmp/scratch/f")] "tid1" tokValid (by decide)
    (by decide) (by decide) (by decide)
  exact ⟨(h.1 (by decide) (by decide)).1,
    h.2.2.1 (by decide) (by decide) 160 prin0 "fs.delete"
      [("path", "/tmp/scratch/f")]⟩

/-! ## C7: path-argument selection (corrected: Python's `or`-chain skips
falsy values, so a present-but-empty `path` loses to a later key) -/

/-- C7 counterexample: the request holds `""` under the key `path`, yet the
value subjected to the path checks is the one under `file_path` — dropping
`file_path` flips the verdict, so "first present key wins, whatever the value"
is false on the code. -/
theorem path_key_selection_counterexample :
    lookupArg argsPathEmpty "path" = some "" ∧
    selectPathArg argsPathEmpty = some "/etc/passwd" ∧
    (PCCapScope.matches_request scope0 "fs.delete" argsPathEmpty "/").fst = false ∧
    (PCCapScope.matches_request scope0 "fs.delete" [("path", "")] "/").fst = true := by
  decide

/-- C7 (amended): the path-like argument is selected by checking the keys
`path`, then `file_path`, then `target`, where the first key present with a
non-empty (truthy) value wins; a key present with the empty string is skipped
in favour of later keys; the selected value — and no other — is the one the
path check runs on. -/
theorem path_key_selection (args : List (String × String)) (v : String) :
    (lookupArg args "path" = some v → v ≠ "" → selectPathArg args = some v) ∧
    ((lookupArg args "path" = none ∨ lookupArg args "path" = some "") →
      lookupArg args "file_path" = some v → v ≠ "" →
      selectPathArg args = some v) ∧
    ((lookupArg args "path" = none ∨ lookupArg args "path" = some "") →
      (lookupArg args "file_path" = none ∨ lookupArg args "file_path" = some "") →
      lookupArg args "target" = some v → selectPathArg args = some v) ∧
    (∀ (sc : PCCapScope) (tool cwd pre r : String),
      tool = sc.tool_name → PCCapScope.path_prefix sc = some pre →
      selectPathArg args = some v → v ≠ "" →
      pathCheck pre v cwd = some r →
      PCCapScope.matches_request sc tool args cwd = (false, some r)) := by
  refine ⟨?_, ?_, ?_, ?_⟩
  · intro h hv
    simp [selectPathArg, pyOr, h, hv]
  · rintro (h | h) hf hv <;> simp [selectPathArg, pyOr, h, hf, hv]
  · rintro (h | h) (hf | hf) ht <;> simp [selectPathArg, pyOr, h, hf, ht]
  · intro sc tool cwd pre r htool hpre hsel hv hpc
    simp [PCCapScope.matches_request, htool, hpre, hsel, hv, hpc]

/-- Witness for C7's amended theorem: with `path` empty, `file_path` is
selected. -/
theorem path_key_selection_witness :
    selectPathArg argsPathEmpty = some "/etc/passwd" :=
  (path_key_selection argsPathEmpty "/etc/passwd").2.1 (Or.inr (by decide))
    (by decide) (by decide)

/-! ## C2: path traversal rejection and component-wise prefix containment -/

lemma splitSlash_cons_sep (l : List Char) :
    splitSlash (SEP :: l) = [] :: splitSlash l := by
  simp [splitSlash]

lemma splitSlash_cons_ne (c : Char) (l : List Char) (h : ¬(c = SEP)) :
    splitSlash (c :: l) =
      match splitSlash l with
      | hd :: tl => (c :: hd) :: tl
      | [] => [[c]] := by
  simp only [splitSlash]
  rw [if_neg h]

lemma splitSlash_ne_nil (l : List Char) : splitSlash l ≠ [] := by
  cases l with
  | nil => simp [splitSlash]
  | cons c rest =>
    simp only [splitSlash]
    by_cases h : c = SEP
    · simp [h]
    · rw [if_neg h]
      cases splitSlash rest <;> simp

lemma splitSlash_no_sep : ∀ (l : List Char) (c : List Char),
    c ∈ splitSlash l → SEP ∉ c := by
  intro l
  induction l with
  | nil =>
    intro c hc
    simp [splitSlash] at hc
    simp [hc]
  | cons a rest ih =>
    intro c hc
    simp only [splitSlash] at hc
    by_cases h : a = SEP
    · rw [if_pos h] at hc
      rcases List.mem_cons.mp hc with h1 | h1
      · simp [h1]
      · exact ih c h1
    · rw [if_neg h] at hc
      cases hr : splitSlash rest with
      | nil => exact absurd hr (splitSlash_ne_nil rest)
      | cons hd tl =>
        rw [hr] at hc
        simp only [] at hc
        rcases List.mem_cons.mp hc with h1 | h1
        · subst h1
          intro hmem
          rcases List.mem_cons.mp hmem with h2 | h2
          · exact h h2.symm
          · exact ih hd (by rw [hr]; exact List.mem_cons_self _ _) h2
        · exact ih c (by rw [hr]; exact List.mem_cons_of_mem _ h1)

lemma mem_filteredComps {l : List Char} {c : List Char}
    (h : c ∈ filteredComps l) : c ≠ [] ∧ c ≠ ['.'] ∧ SEP ∉ c := by
  rcases List.mem_filter.mp h with ⟨hmem, hp⟩
  refine ⟨?_, ?_, splitSlash_no_sep l c hmem⟩
  · intro he; subst he; simp at hp
  · intro he; subst he; simp at hp

lemma commonPre_isPre_left : ∀ (a b : List (List Char)), commonPre a b <+: a := by
  intro a
  induction a with
  | nil => intro b; cases b <;> simp [commonPre]
  | cons x as ih =>
    intro b
    cases b with
    | nil => simp [commonPre]
    | cons y bs =>
      by_cases h : x = y
      · rw [show commonPre (x :: as) (y :: bs) = x :: commonPre as bs from by
          simp [commonPre, h]]
        exact List.cons_prefix_cons.mpr ⟨rfl, ih bs⟩
      · rw [show commonPre (x :: as) (y :: bs) = [] from by simp [commonPre, h]]
        exact List.nil_prefix

lemma splitSlash_single {x : List Char} (h : SEP ∉ x) : splitSlash x = [x] := by
  induction x with
  | nil => rfl
  | cons c cs ih =>
    have hc : ¬(c = SEP) := fun hh => h (hh ▸ List.mem_cons_self c cs)
    have hcs : SEP ∉ cs := fun hh => h (List.mem_cons_of_mem _ hh)
    simp only [splitSlash, ih hcs]
    rw [if_neg hc]

lemma splitSlash_append {x : List Char} (r : List Char) (h : SEP ∉ x) :
    splitSlash (x ++ SEP :: r) = x :: splitSlash r := by
  induction x with
  | nil =>
    rw [List.nil_append, splitSlash_cons_sep]
  | cons c cs ih =>
    have hc : ¬(c = SEP) := fun hh => h (hh ▸ List.mem_cons_self c _)
    have hcs : SEP ∉ cs := fun hh => h (List.mem_cons_of_mem _ hh)
    rw [List.cons_append, splitSlash_cons_ne c _ hc, ih hcs]

lemma filteredComps_sep_cons (l : List Char) :
    filteredComps (SEP :: l) = filteredComps l := by
  unfold filteredComps
  rw [splitSlash_cons_sep]
  simp [List.filter_cons]

lemma filteredComps_interJoin : ∀ (cs : List (List Char)),
    (∀ c ∈ cs, c ≠ [] ∧ c ≠ ['.'] ∧ SEP ∉ c) →
    filteredComps (interJoin cs) = cs := by
  intro cs
  induction cs with
  | nil => intro _; rfl
  | cons c cs ih =>
    intro h
    rcases h c (List.mem_cons_self _ _) with ⟨hne, hdot, hsep⟩
    cases cs with
    | nil =>
      rw [show interJoin [c] = c from rfl]
      unfold filteredComps
      rw [splitSlash_single hsep]
      simp [List.filter_cons, hne, hdot]
    | cons c2 cs2 =>
      rw [show interJoin (c :: c2 :: cs2) = c ++ SEP :: interJoin (c2 :: cs2)
        from rfl]
      have ih2 := ih (fun d hd => h d (List.mem_cons_of_mem _ hd))
      unfold filteredComps at ih2 ⊢
      rw [splitSlash_append _ hsep]
      simp [List.filter_cons, hne, hdot, ih2]

/-- The component-wise "lies under" relation the spec's path containment
describes: the prefix's (absolute, normalized) components lead the request's. -/
def underComponentwise (reqAbs allowedAbs : List Char) : Prop :=
  filteredComps allowedAbs <+: filteredComps reqAbs

lemma commonpath2_self_underComponentwise {p q : List Char}
    (h : commonpath2 p q = some q) : underComponentwise p q := by
  unfold commonpath2 at h
  by_cases hiff : (p.head? = some SEP) ↔ (q.head? = some SEP)
  · rw [if_pos hiff] at h
    injection h with h
    have hcp : commonPre (filteredComps p) (filteredComps q) <+: filteredComps p :=
      commonPre_isPre_left _ _
    have hnice : ∀ c ∈ commonPre (filteredComps p) (filteredComps q),
        c ≠ [] ∧ c ≠ ['.'] ∧ SEP ∉ c := by
      intro c hc
      exact mem_filteredComps (hcp.subset hc)
    unfold underComponentwise
    by_cases habs : p.head? = some SEP
    · rw [if_pos habs] at h
      have hq : filteredComps q =
          commonPre (filteredComps p) (filteredComps q) := by
        conv_lhs => rw [← h]
        rw [show ([SEP] ++ interJoin (commonPre (filteredComps p)
          (filteredComps q))) = SEP :: interJoin (commonPre (filteredComps p)
          (filteredComps q)) from rfl]
        rw [filteredComps_sep_cons, filteredComps_interJoin _ hnice]
      rw [hq]
      exact hcp
    · rw [if_neg habs] at h
      have hq : filteredComps q =
          commonPre (filteredComps p) (filteredComps q) := by
        conv_lhs => rw [← h]
        rw [show (([] : List Char) ++ interJoin (commonPre (filteredComps p)
          (filteredComps q))) = interJoin (commonPre (filteredComps p)
          (filteredComps q)) from rfl]
        rw [filteredComps_interJoin _ hnice]
      rw [hq]
      exact hcp
  · rw [if_neg hiff] at h
    exact absurd h (by simp)

lemma pathCheck_none_facts (pre p cwd : String)
    (h : pathCheck pre p cwd = none) :
    hasTraversal p.data = false ∧ hasTraversal (normpath p.data) = false ∧
    commonpath2 (abspath (normpath p.data) cwd.data)
        (abspath (normpath pre.data) cwd.data) =
      some (abspath (normpath pre.data) cwd.data) := by
  simp only [pathCheck] at h
  by_cases h1 : hasTraversal p.data = true
  · rw [if_pos h1] at h
    exact absurd h (by simp)
  · have h1' : hasTraversal p.data = false := Bool.eq_false_iff.mpr h1
    rw [if_neg h1] at h
    by_cases h2 : hasTraversal (normpath p.data) = true
    · rw [if_pos h2] at h
      exact absurd h (by simp)
    · have h2' : hasTraversal (normpath p.data) = false := Bool.eq_false_iff.mpr h2
      rw [if_neg h2] at h
      refine ⟨h1', h2', ?_⟩
      cases hc : commonpath2 (abspath (normpath p.data) cwd.data)
          (abspath (normpath pre.data) cwd.data) with
      | none =>
        rw [hc] at h
        exact absurd h (by simp)
      | some c =>
        rw [hc] at h
        have h' : (if c = abspath (normpath pre.data) cwd.data then none
            else some ("path " ++ p ++ " not under allowed prefix " ++ pre) :
            Option String) = none := h
        by_cases he : c = abspath (normpath pre.data) cwd.data
        · rw [he]
        · rw [if_neg he] at h'
          exact absurd h' (by simp)

lemma matches_true_pathCheck_none (sc : PCCapScope) (tool : String)
    (args : List (String × String)) (cwd pre p : String)
    (hpre : PCCapScope.path_prefix sc = some pre)
    (hsel : selectPathArg args = some p) (hv : p ≠ "")
    (hm : (PCCapScope.matches_request sc tool args cwd).fst = true) :
    pathCheck pre p cwd = none := by
  by_cases htool : tool = sc.tool_name
  · cases hpc : pathCheck pre p cwd with
    | none => rfl
    | some r =>
      simp [PCCapScope.matches_request, htool, hpre, hsel, hv, hpc] at hm
  · simp [PCCapScope.matches_request, htool] at hm

/-- C2: with `path_prefix` set and a (truthy) path-like argument supplied,
`matches_request` rejects whenever any segment of the raw value or of its
normalized form is `..`; whenever it accepts, the absolute form of the
normalized request path lies component-wise under the absolute form of the
normalized prefix; a `commonpath` resolution failure is a non-match rather
than an error; and concretely the sibling directory `/tmp/scratchy/file.txt`
does not match prefix `/tmp/scratch` while `/tmp/scratch/file.txt` does. -/
theorem matches_request_path_containment (sc : PCCapScope) (tool : String)
    (args : List (String × String)) (cwd pre p : String) :
    (PCCapScope.path_prefix sc = some pre → selectPathArg args = some p →
      p ≠ "" →
      (hasTraversal p.data = true ∨ hasTraversal (normpath p.data) = true) →
      (PCCapScope.matches_request sc tool args cwd).fst = false) ∧
    (PCCapScope.path_prefix sc = some pre → selectPathArg args = some p →
      p ≠ "" →
      (PCCapScope.matches_request sc tool args cwd).fst = true →
      underComponentwise (abspath (normpath p.data) cwd.data)
        (abspath (normpath pre.data) cwd.data)) ∧
    (PCCapScope.path_prefix sc = some pre → selectPathArg args = some p →
      p ≠ "" →
      commonpath2 (abspath (normpath p.data) cwd.data)
          (abspath (normpath pre.data) cwd.data) = none →
      (PCCapScope.matches_request sc tool args cwd).fst = false) ∧
    ((PCCapScope.matches_request scope0 "fs.delete"
        [("path", "/tmp/scratchy/file.txt")] "/").fst = false) ∧
    (PCCapScope.matches_request scope0 "fs.delete"
        [("path", "/tmp/scratch/file.txt")] "/" = (true, none)) := by
  refine ⟨?_, ?_, ?_, by decide, by decide⟩
  · intro hpre hsel hv htrav
    by_cases htool : tool = sc.tool_name
    · cases hpc : pathCheck pre p cwd with
      | some r => simp [PCCapScope.matches_request, htool, hpre, hsel, hv, hpc]
      | none =>
        rcases pathCheck_none_facts pre p cwd hpc with ⟨f1, f2, _⟩
        rcases htrav with h | h
        · rw [h] at f1
          exact absurd f1 (by simp)
        · rw [h] at f2
          exact absurd f2 (by simp)
    · simp [PCCapScope.matches_request, htool]
  · intro hpre hsel hv hm
    have hpc := matches_true_pathCheck_none sc tool args cwd pre p hpre hsel hv hm
    rcases pathCheck_none_facts pre p cwd hpc with ⟨_, _, hcp⟩
    exact commonpath2_self_underComponentwise hcp
  · intro hpre hsel hv hcp
    by_cases htool : tool = sc.tool_name
    · cases hpc : pathCheck pre p cwd with
      | some r => simp [PCCapScope.matches_request, htool, hpre, hsel, hv, hpc]
      | none =>
        rcases pathCheck_none_facts pre p cwd hpc with ⟨_, _, hsome⟩
        rw [hcp] at hsome
        exact Option.noConfusion hsome
    · simp [PCCapScope.matches_request, htool]

/-- Witness for C2: the traversal input is rejected, and the accepted
`/tmp/scratch/file.txt` lies component-wise under the prefix. -/
theorem matches_request_path_containment_witness :
    (PCCapScope.matches_request scope0 "fs.delete"
        [("path", "/tmp/scratch/../../../etc/passwd")] "/").fst = false ∧
    underComponentwise (abspath (normpath "/tmp/scratch/file.txt".data) "/".data)
      (abspath (normpath "/tmp/scratch".data) "/".data) := by
  constructor
  · exact (matches_request_path_containment scope0 "fs.delete"
      [("path", "/tmp/scratch/../../../etc/passwd")] "/" "/tmp/scratch"
      "/tmp/scratch/../../../etc/passwd").1 (by decide) (by decide) (by decide)
      (Or.inl (by decide))
  · exact (matches_request_path_containment scope0 "fs.delete"
      [("path", "/tmp/scratch/file.txt")] "/" "/tmp/scratch"
      "/tmp/scratch/file.txt").2.1 (by decide) (by decide) (by decide) (by decide)

/-! ## C3: signature verification is a pure function of the signed fields -/

lemma natDigitsGo_acc : ∀ (fuel n : Nat) (acc : List Char), n < fuel →
    natDigitsGo fuel n acc = natDigitsGo fuel n [] ++ acc := by
  intro fuel
  induction fuel with
  | zero => intro n acc h; omega
  | succ f ih =>
    intro n acc h
    by_cases h10 : n < 10
    · simp [natDigitsGo, h10]
    · have hlt : n / 10 < n := Nat.div_lt_self (by omega) (by omega)
      have hf : n / 10 < f := by omega
      simp only [natDigitsGo, h10, if_false]
      rw [ih (n / 10) (digitChar (n % 10) :: acc) hf,
        ih (n / 10) [digitChar (n % 10)] hf, List.append_assoc]
      rfl

lemma natDigitsGo_fuel : ∀ (f1 f2 n : Nat) (acc : List Char), n < f1 → n < f2 →
    natDigitsGo f1 n acc = natDigitsGo f2 n acc := by
  intro f1
  induction f1 with
  | zero => intro f2 n acc h1 _; omega
  | succ f ih =>
    intro f2 n acc h1 h2
    cases f2 with
    | zero => omega
    | succ f2' =>
      by_cases h10 : n < 10
      · simp [natDigitsGo, h10]
      · have hlt : n / 10 < n := Nat.div_lt_self (by omega) (by omega)
        simp only [natDigitsGo, h10, if_false]
        exact ih f2' (n / 10) (digitChar (n % 10) :: acc) (by omega) (by omega)

lemma natDigits_unfold (n : Nat) : natDigits n =
    if n < 10 then [digitChar n]
    else natDigits (n / 10) ++ [digitChar (n % 10)] := by
  by_cases h : n < 10
  · rw [if_pos h]
    show natDigitsGo (n + 1) n [] = _
    simp [natDigitsGo, h, Nat.mod_eq_of_lt h]
  · rw [if_neg h]
    have hlt : n / 10 < n := Nat.div_lt_self (by omega) (by omega)
    show natDigitsGo (n + 1) n [] = _
    rw [show natDigitsGo (n + 1) n [] =
      natDigitsGo n (n / 10) (digitChar (n % 10) :: []) from by
        simp [natDigitsGo, h]]
    rw [natDigitsGo_acc n (n / 10) [digitChar (n % 10)] (by omega)]
    unfold natDigits
    rw [natDigitsGo_fuel n (n / 10 + 1) (n / 10) [] (by omega) (by omega)]

lemma dval_digitChar : ∀ d, d < 10 → dval (digitChar d) = d := by decide

lemma digitChar_isDigit : ∀ d, d < 10 → (digitChar d).isDigit = true := by decide

lemma ofDigitsV_append_singleton (l : List Char) (c : Char) :
    ofDigitsV (l ++ [c]) = 10 * ofDigitsV l + dval c := by
  unfold ofDigitsV
  rw [List.foldl_append]
  rfl

lemma ofDigitsV_natDigits : ∀ n, ofDigitsV (natDigits n) = n := by
  intro n
  induction n using Nat.strong_induction_on with
  | _ n ih =>
    rw [natDigits_unfold]
    by_cases h : n < 10
    · rw [if_pos h]
      simp [ofDigitsV, dval_digitChar n h]
    · rw [if_neg h, ofDigitsV_append_singleton,
        ih (n / 10) (Nat.div_lt_self (by omega) (by omega)),
        dval_digitChar _ (Nat.mod_lt _ (by omega))]
      omega

lemma natDigits_inj {a b : Nat} (h : natDigits a = natDigits b) : a = b := by
  have h2 := congrArg ofDigitsV h
  rwa [ofDigitsV_natDigits, ofDigitsV_natDigits] at h2

lemma natDigits_ne_nil (n : Nat) : natDigits n ≠ [] := by
  rw [natDigits_unfold]
  by_cases h : n < 10 <;> simp [h]

lemma natDigits_all_digits : ∀ n, ∀ c ∈ natDigits n, c.isDigit = true := by
  intro n
  induction n using Nat.strong_induction_on with
  | _ n ih =>
    intro c hc
    rw [natDigits_unfold] at hc
    by_cases h : n < 10
    · rw [if_pos h] at hc
      simp at hc
      subst hc
      exact digitChar_isDigit n h
    · rw [if_neg h] at hc
      rcases List.mem_append.mp hc with h1 | h1
      · exact ih (n / 10) (Nat.div_lt_self (by omega) (by omega)) c h1
      · simp at h1
        subst h1
        exact digitChar_isDigit _ (Nat.mod_lt _ (by omega))

lemma jsonInt_chars : ∀ (i : Int), ∀ c ∈ jsonInt i, c.isDigit = true ∨ c = '-' := by
  intro i c hc
  unfold jsonInt at hc
  by_cases h : i < 0
  · rw [if_pos h] at hc
    rcases List.mem_cons.mp hc with h1 | h1
    · exact Or.inr h1
    · exact Or.inl (natDigits_all_digits _ c h1)
  · rw [if_neg h] at hc
    exact Or.inl (natDigits_all_digits _ c hc)

lemma jsonInt_no_comma (i : Int) : ',' ∉ jsonInt i := by
  intro h
  rcases jsonInt_chars i ',' h with h1 | h1 <;> simp at h1

lemma jsonInt_head_not_n (i : Int) : ∀ c cs, jsonInt i = c :: cs → ¬(c = 'n') := by
  intro c cs h hn
  subst hn
  have : 'n' ∈ jsonInt i := by rw [h]; exact List.mem_cons_self _ _
  rcases jsonInt_chars i 'n' this with h1 | h1 <;> simp at h1

lemma jsonInt_inj {a b : Int} (h : jsonInt a = jsonInt b) : a = b := by
  unfold jsonInt at h
  by_cases ha : a < 0 <;> by_cases hb : b < 0
  · rw [if_pos ha, if_pos hb] at h
    injection h with _ h2
    have h3 := natDigits_inj h2
    have h4 : ((-a).toNat : Int) = ((-b).toNat : Int) := by rw [h3]
    rw [Int.toNat_of_nonneg (by omega), Int.toNat_of_nonneg (by omega)] at h4
    omega
  · rw [if_pos ha, if_neg hb] at h
    have hm : '-' ∈ natDigits b.toNat := by rw [← h]; exact List.mem_cons_self _ _
    have := natDigits_all_digits b.toNat '-' hm
    simp at this
  · rw [if_neg ha, if_pos hb] at h
    have hm : '-' ∈ natDigits a.toNat := by rw [h]; exact List.mem_cons_self _ _
    have := natDigits_all_digits a.toNat '-' hm
    simp at this
  · rw [if_neg ha, if_neg hb] at h
    have h3 := natDigits_inj h
    have h4 : (a.toNat : Int) = (b.toNat : Int) := by rw [h3]
    rw [Int.toNat_of_nonneg (by omega), Int.toNat_of_nonneg (by omega)] at h4
    exact h4

lemma append_cons_cancel {α : Type} {d : α} :
    ∀ {x y r s : List α}, d ∉ x → d ∉ y →
    x ++ d :: r = y ++ d :: s → x = y ∧ r = s := by
  intro x
  induction x with
  | nil =>
    intro y r s _ hy h
    cases y with
    | nil =>
      refine ⟨rfl, ?_⟩
      injection h
    | cons e y' =>
      rw [List.nil_append, List.cons_append] at h
      injection h with h1 _
      exact absurd (h1 ▸ List.mem_cons_self e y') hy
  | cons a x' ih =>
    intro y r s hx hy h
    cases y with
    | nil =>
      rw [List.cons_append, List.nil_append] at h
      injection h with h1 _
      exact absurd (h1.symm ▸ List.mem_cons_self a x') hx
    | cons e y' =>
      rw [List.cons_append, List.cons_append] at h
      injection h with h1 h2
      have hx' : d ∉ x' := fun hm => hx (List.mem_cons_of_mem _ hm)
      have hy' : d ∉ y' := fun hm => hy (List.mem_cons_of_mem _ hm)
      obtain ⟨he, hr⟩ := ih hx' hy' h2
      exact ⟨by rw [h1, he], hr⟩

lemma jsonInt_comma_cancel {a b : Int} {r s : List Char}
    (h : jsonInt a ++ ',' :: r = jsonInt b ++ ',' :: s) : a = b ∧ r = s := by
  obtain ⟨h1, h2⟩ := append_cons_cancel (jsonInt_no_comma a) (jsonInt_no_comma b) h
  exact ⟨jsonInt_inj h1, h2⟩

lemma escChar_special {c : Char} (h : c = '"' ∨ c = '\\') :
    escChar c = ['\\', c] := by
  simp [escChar, h]

lemma escChar_plain {c : Char} (h : ¬(c = '"' ∨ c = '\\')) :
    escChar c = [c] := by
  simp [escChar, h]

lemma escStr_quote_cancel : ∀ (a b r s : List Char),
    escStr a ++ '"' :: r = escStr b ++ '"' :: s → a = b ∧ r = s := by
  intro a
  induction a with
  | nil =>
    intro b r s h
    cases b with
    | nil =>
      simp only [escStr, List.nil_append] at h
      refine ⟨rfl, ?_⟩
      injection h
    | cons d bs =>
      exfalso
      simp only [escStr, List.nil_append, List.append_assoc] at h
      by_cases hd : d = '"' ∨ d = '\\'
      · rw [escChar_special hd] at h
        simp only [List.cons_append, List.nil_append] at h
        injection h with h1 _
        simp at h1
      · rw [escChar_plain hd] at h
        simp only [List.cons_append, List.nil_append] at h
        injection h with h1 _
        exact hd (Or.inl h1.symm)
  | cons c as ih =>
    intro b r s h
    cases b with
    | nil =>
      exfalso
      simp only [escStr, List.nil_append, List.append_assoc] at h
      by_cases hc : c = '"' ∨ c = '\\'
      · rw [escChar_special hc] at h
        simp only [List.cons_append, List.nil_append] at h
        injection h with h1 _
        simp at h1
      · rw [escChar_plain hc] at h
        simp only [List.cons_append, List.nil_append] at h
        injection h with h1 _
        exact hc (Or.inl h1)
    | cons d bs =>
      simp only [escStr, List.append_assoc] at h
      by_cases hc : c = '"' ∨ c = '\\' <;> by_cases hd : d = '"' ∨ d = '\\'
      · rw [escChar_special hc, escChar_special hd] at h
        simp only [List.cons_append, List.nil_append] at h
        injection h with _ h2
        injection h2 with h3 h4
        obtain ⟨ha, hr⟩ := ih bs r s h4
        exact ⟨by rw [h3, ha], hr⟩
      · rw [escChar_special hc, escChar_plain hd] at h
        simp only [List.cons_append, List.nil_append] at h
        injection h with h1 _
        exact absurd (Or.inr h1.symm) hd
      · rw [escChar_plain hc, escChar_special hd] at h
        simp only [List.cons_append, List.nil_append] at h
        injection h with h1 _
        exact absurd (Or.inr h1) hc
      · rw [escChar_plain hc, escChar_plain hd] at h
        simp only [List.cons_append, List.nil_append] at h
        injection h with h1 h2
        obtain ⟨ha, hr⟩ := ih bs r s h2
        exact ⟨by rw [h1, ha], hr⟩

lemma jsonStr_uncat {a b : String} {r s : List Char}
    (h : jsonStr a ++ r = jsonStr b ++ s) : a = b ∧ r = s := by
  unfold jsonStr at h
  have h' : '"' :: (escStr a.data ++ '"' :: r) =
      '"' :: (escStr b.data ++ '"' :: s) := by
    simpa [List.append_assoc] using h
  injection h' with hh h2
  obtain ⟨hd, ht⟩ := escStr_quote_cancel _ _ _ _ h2
  refine ⟨?_, ht⟩
  cases a
  cases b
  exact congrArg String.mk hd

lemma jsonOptStr_uncat {a b : Option String} {r s : List Char}
    (h : jsonOptStr a ++ r = jsonOptStr b ++ s) : a = b ∧ r = s := by
  cases a with
  | none =>
    cases b with
    | none =>
      refine ⟨rfl, ?_⟩
      simpa [jsonOptStr, jsonNull] using h
    | some v =>
      exfalso
      simp only [jsonOptStr, jsonNull, jsonStr, List.cons_append] at h
      injection h with h1 _
      simp at h1
  | some u =>
    cases b with
    | none =>
      exfalso
      simp only [jsonOptStr, jsonNull, jsonStr, List.cons_append] at h
      injection h with h1 _
      simp at h1
    | some v =>
      obtain ⟨he, hr⟩ := jsonStr_uncat (a := u) (b := v) (by simpa [jsonOptStr] using h)
      exact ⟨by rw [he], hr⟩

lemma jsonBool_uncat {a b : Bool} {r s : List Char}
    (h : jsonBool a ++ r = jsonBool b ++ s) : a = b ∧ r = s := by
  cases a <;> cases b <;> simp [jsonBool] at h ⊢ <;> exact h

lemma jsonInt_ne_nil (i : Int) : jsonInt i ≠ [] := by
  unfold jsonInt
  by_cases hs : i < 0
  · simp [hs]
  · simp [hs, natDigits_ne_nil]

lemma jsonOptInt_comma_cancel {a b : Option Int} {r s : List Char}
    (h : jsonOptInt a ++ ',' :: r = jsonOptInt b ++ ',' :: s) :
    a = b ∧ r = s := by
  cases a with
  | none =>
    cases b with
    | none =>
      refine ⟨rfl, ?_⟩
      simpa [jsonOptInt, jsonNull] using h
    | some j =>
      exfalso
      simp only [jsonOptInt, jsonNull, List.cons_append] at h
      cases hj : jsonInt j with
      | nil => exact jsonInt_ne_nil j hj
      | cons c cs =>
        rw [hj, List.cons_append] at h
        injection h with h1 _
        exact jsonInt_head_not_n j c cs hj h1.symm
  | some i =>
    cases b with
    | none =>
      exfalso
      simp only [jsonOptInt, jsonNull, List.cons_append] at h
      cases hj : jsonInt i with
      | nil => exact jsonInt_ne_nil i hj
      | cons c cs =>
        rw [hj, List.cons_append] at h
        injection h with h1 _
        exact jsonInt_head_not_n i c cs hj h1
    | some j =>
      obtain ⟨he, hr⟩ := jsonInt_comma_cancel (by simpa [jsonOptInt] using h)
      exact ⟨by rw [he], hr⟩

lemma dictEntry_uncat {p q : String × String} {r s : List Char}
    (h : dictEntry p ++ r = dictEntry q ++ s) : p = q ∧ r = s := by
  rcases p with ⟨pk, pv⟩
  rcases q with ⟨qk, qv⟩
  unfold dictEntry at h
  simp only [List.append_assoc, List.cons_append] at h
  obtain ⟨hk, h2⟩ := jsonStr_uncat h
  injection h2 with _ h3
  obtain ⟨hv, h4⟩ := jsonStr_uncat h3
  exact ⟨by rw [hk, hv], h4⟩

lemma dictBody_rbrace_cancel : ∀ (m1 m2 : List (String × String)) (r s : List Char),
    dictBody m1 ++ rbrace :: r = dictBody m2 ++ rbrace :: s →
    m1 = m2 ∧ r = s := by
  intro m1
  induction m1 with
  | nil =>
    intro m2 r s h
    cases m2 with
    | nil =>
      refine ⟨rfl, ?_⟩
      simpa [dictBody] using h
    | cons q rest2 =>
      exfalso
      cases rest2 with
      | nil =>
        simp only [dictBody, dictEntry, jsonStr, List.nil_append,
          List.cons_append, List.append_assoc] at h
        injection h with h1 _
        simp [rbrace] at h1
      | cons q2 rest2' =>
        simp only [dictBody, dictEntry, jsonStr, List.nil_append,
          List.cons_append, List.append_assoc] at h
        injection h with h1 _
        simp [rbrace] at h1
  | cons p rest1 ih =>
    intro m2 r s h
    cases m2 with
    | nil =>
      exfalso
      cases rest1 with
      | nil =>
        simp only [dictBody, dictEntry, jsonStr, List.nil_append,
          List.cons_append, List.append_assoc] at h
        injection h with h1 _
        simp [rbrace] at h1
      | cons p2 rest1' =>
        simp only [dictBody, dictEntry, jsonStr, List.nil_append,
          List.cons_append, List.append_assoc] at h
        injection h with h1 _
        simp [rbrace] at h1
    | cons q rest2 =>
      cases rest1 with
      | nil =>
        cases rest2 with
        | nil =>
          simp only [dictBody] at h
          obtain ⟨hpq, h2⟩ := dictEntry_uncat h
          refine ⟨by rw [hpq], ?_⟩
          injection h2
        | cons q2 rest2' =>
          exfalso
          simp only [dictBody, List.append_assoc, List.cons_append] at h
          obtain ⟨_, h2⟩ := dictEntry_uncat h
          injection h2 with h3 _
          simp [rbrace] at h3
      | cons p2 rest1' =>
        cases rest2 with
        | nil =>
          exfalso
          simp only [dictBody, List.append_assoc, List.cons_append] at h
          obtain ⟨_, h2⟩ := dictEntry_uncat h
          injection h2 with h3 _
          simp [rbrace] at h3
        | cons q2 rest2' =>
          simp only [dictBody, List.append_assoc, List.cons_append] at h
          obtain ⟨hpq, h2⟩ := dictEntry_uncat h
          injection h2 with _ h3
          obtain ⟨hrest, hr⟩ := ih (q2 :: rest2') r s (by
            simpa [dictBody, List.append_assoc] using h3)
          exact ⟨by rw [hpq, hrest], hr⟩

lemma jsonDict_uncat {l1 l2 : List (String × String)} {r s : List Char}
    (h : jsonDict l1 ++ r = jsonDict l2 ++ s) :
    sortPairs l1 = sortPairs l2 ∧ r = s := by
  unfold jsonDict at h
  have h' : lbrace :: (dictBody (sortPairs l1) ++ rbrace :: r) =
      lbrace :: (dictBody (sortPairs l2) ++ rbrace :: s) := by
    simpa [List.append_assoc] using h
  injection h' with _ h2
  exact dictBody_rbrace_cancel _ _ _ _ h2

lemma algorithm_value_inj {a b : SignatureAlgorithm}
    (h : SignatureAlgorithm.value a = SignatureAlgorithm.value b) : a = b := by
  revert h
  cases a <;> cases b <;> decide

lemma scopeJson_uncat {s1 s2 : PCCapScope} {r s : List Char}
    (h : scopeJson s1 ++ r = scopeJson s2 ++ s) :
    scopeSameDict s1 s2 ∧ r = s := by
  unfold scopeJson at h
  simp only [List.append_assoc, List.cons_append, List.nil_append] at h
  injection h with _ h
  have h := List.append_cancel_left h
  obtain ⟨haa, h⟩ := jsonDict_uncat h
  injection h with _ h
  have h := List.append_cancel_left h
  obtain ⟨hmb, h⟩ := jsonOptInt_comma_cancel h
  have h := List.append_cancel_left h
  obtain ⟨hpp, h⟩ := jsonOptStr_uncat h
  injection h with _ h
  have h := List.append_cancel_left h
  obtain ⟨htn, h⟩ := jsonStr_uncat h
  injection h with _ h
  exact ⟨⟨htn, hpp, hmb, haa⟩, h⟩

lemma scopeJson_congr {s1 s2 : PCCapScope} (h : scopeSameDict s1 s2) :
    scopeJson s1 = scopeJson s2 := by
  rcases h with ⟨h1, h2, h3, h4⟩
  unfold scopeJson jsonDict
  rw [h1, h2, h3, h4]

lemma canonical_bytes_eq_iff (a b : PCCapToken) :
    PCCapToken.canonical_bytes a = PCCapToken.canonical_bytes b ↔
      sameSignedFields a b := by
  constructor
  · intro h
    unfold PCCapToken.canonical_bytes at h
    simp only [List.append_assoc, List.cons_append, List.nil_append] at h
    injection h with _ h
    have h := List.append_cancel_left h
    obtain ⟨halg, h⟩ := jsonStr_uncat h
    injection h with _ h
    have h := List.append_cancel_left h
    obtain ⟨hexp, h⟩ := jsonInt_comma_cancel h
    have h := List.append_cancel_left h
    obtain ⟨hiss, h⟩ := jsonInt_comma_cancel h
    have h := List.append_cancel_left h
    obtain ⟨hby, h⟩ := jsonStr_uncat h
    injection h with _ h
    have h := List.append_cancel_left h
    obtain ⟨hnon, h⟩ := jsonOptStr_uncat h
    injection h with _ h
    have h := List.append_cancel_left h
    obtain ⟨hpol, h⟩ := jsonOptStr_uncat h
    injection h with _ h
    have h := List.append_cancel_left h
    obtain ⟨hsub, h⟩ := jsonStr_uncat h
    injection h with _ h
    have h := List.append_cancel_left h
    obtain ⟨hsc, h⟩ := scopeJson_uncat h
    injection h with _ h
    have h := List.append_cancel_left h
    obtain ⟨hsu, h⟩ := jsonBool_uncat h
    injection h with _ h
    have h := List.append_cancel_left h
    obtain ⟨htid, _⟩ := jsonStr_uncat h
    exact ⟨htid, hsub, hsc, hiss, hexp, hby, hpol, hsu, hnon,
      algorithm_value_inj halg⟩
  · rintro ⟨h1, h2, h3, h4, h5, h6, h7, h8, h9, h10⟩
    unfold PCCapToken.canonical_bytes
    rw [h1, h2, h4, h5, h6, h7, h8, h9, h10, scopeJson_congr h3]

lemma sameSignedFields_refl (t : PCCapToken) : sameSignedFields t t :=
  ⟨rfl, rfl, ⟨rfl, rfl, rfl, rfl⟩, rfl, rfl, rfl, rfl, rfl, rfl, rfl⟩

/-- C3: with a collision-free keyed MAC (injectivity of `mac secret` and
non-emptiness of digests stand in for HMAC-SHA256's collision resistance),
`Keyring.verify` is a pure function of the token's current field values:
it returns false when no signature is present; a freshly signed token
verifies; and for any token carrying a given token's signature, verification
succeeds exactly when every signed field agrees with that token's — so
mutating any signed field after signing makes `verify` return false, and
restoring the field restores success. -/
theorem verify_pure_in_fields (k : Keyring) (mac : MacFn)
    (hinj : Function.Injective (mac k.secret))
    (hne : ∀ m, mac k.secret m ≠ []) :
    (∀ t : PCCapToken, t.signature = none → Keyring.verify mac k t = false) ∧
    (∀ t : PCCapToken,
      Keyring.verify mac k { t with signature := some (Keyring.sign mac k t) } =
        true) ∧
    (∀ t t' : PCCapToken, t'.signature = some (Keyring.sign mac k t) →
      (Keyring.verify mac k t' = true ↔ sameSignedFields t' t)) := by
  have hs_ne : ∀ t : PCCapToken, ¬(Keyring.sign mac k t = "") := by
    intro t hcontr
    apply hne (PCCapToken.canonical_bytes t)
    have h2 := congrArg String.data hcontr
    simpa [Keyring.sign] using h2
  have hmain : ∀ t t' : PCCapToken,
      t'.signature = some (Keyring.sign mac k t) →
      (Keyring.verify mac k t' = true ↔ sameSignedFields t' t) := by
    intro t t' hsig
    unfold Keyring.verify
    rw [hsig]
    show (if Keyring.sign mac k t = "" then false
      else Keyring.sign mac k t == Keyring.sign mac k t') = true ↔
      sameSignedFields t' t
    rw [if_neg (hs_ne t)]
    constructor
    · intro h
      have heq : Keyring.sign mac k t = Keyring.sign mac k t' := by
        simpa using h
      have hdata : mac k.secret (PCCapToken.canonical_bytes t) =
          mac k.secret (PCCapToken.canonical_bytes t') := by
        have h3 := congrArg String.data heq
        simpa [Keyring.sign] using h3
      have hcb := hinj hdata
      exact (canonical_bytes_eq_iff t' t).mp hcb.symm
    · intro h
      have hcb : PCCapToken.canonical_bytes t' = PCCapToken.canonical_bytes t :=
        (canonical_bytes_eq_iff t' t).mpr h
      show (Keyring.sign mac k t == Keyring.sign mac k t') = true
      simp [Keyring.sign, hcb]
  refine ⟨?_, ?_, hmain⟩
  · intro t h
    unfold Keyring.verify
    rw [h]
  · intro t
    have hsig : ({ t with signature := some (Keyring.sign mac k t) } :
        PCCapToken).signature = some (Keyring.sign mac k
          { t with signature := some (Keyring.sign mac k t) }) := rfl
    exact (hmain _ _ hsig).mpr (sameSignedFields_refl _)

/-- Witness for C3, mirroring the repository's tamper test: the fresh token
verifies; extending `expires_at` breaks verification; restoring it repairs
verification. -/
theorem verify_pure_in_fields_witness :
    Keyring.verify macI kr0 tokValid = true ∧
    Keyring.verify macI kr0 { tokValid with expires_at := 3700 } = false ∧
    Keyring.verify macI kr0
      { { tokValid with expires_at := 3700 } with expires_at := 400 } = true := by
  have hinj : Function.Injective (macI kr0.secret) := by
    intro a b hh
    simp only [macI] at hh
    injection hh with hh1 hh2
    have hh3 := List.append_cancel_left hh2
    injection hh3 with hh4 hh5
  have hne : ∀ m, macI kr0.secret m ≠ [] := by
    intro m h
    simp [macI] at h
  have h := verify_pure_in_fields kr0 macI hinj hne
  refine ⟨?_, ?_, ?_⟩
  · exact (h.2.2 tokValid tokValid (by decide)).mpr (sameSignedFields_refl _)
  · have hiff := h.2.2 tokValid { tokValid with expires_at := 3700 } (by decide)
    have hnot : ¬sameSignedFields { tokValid with expires_at := 3700 } tokValid := by
      decide
    exact Bool.eq_false_iff.mpr (fun hv => hnot (hiff.mp hv))
  · exact (h.2.2 tokValid
      { { tokValid with expires_at := 3700 } with expires_at := 400 }
      (by decide)).mpr (by decide)

end PCCap
